import Mathlib

/-!
# Verification of the bcvdollar-bot rate-ingestion pipeline

Shallow embedding of the repository's three Python modules:

* `rates.py`   — sheet extraction (`get_sheet_rate`), the ingestion loop
  (`store_rates`) and the point query (`rate_at`);
* `database.py` — the sqlite value codecs (`adapt_decimal`, `convert_decimal`,
  `adapt_datetime_iso`, `convert_datetime`);
* `main.py`    — the polling scheduler (`get_next_check_delay`, `update_timer`),
  the notification query (`broadcast_update`), date parsing (`try_parse_date`)
  and the `/tasa` command handler (`command_rate`).

Conventions of the embedding:

* exact decimal amounts are rationals (`ℚ`);
* store timestamps are natural numbers: seconds on one naive local
  timeline, with day 0 = 0001-01-01 of the proleptic Gregorian calendar (a
  Monday, so Python's `weekday()` is day-number mod 7); the extractor's
  `astimezone` call additionally involves the host timezone, modeled there
  as an explicit fixed UTC offset;
* strings are `List Char`; the sqlite TEXT encode/decode step
  (`str.encode`/`bytes.decode`) is the identity on these ASCII strings;
* fallible code returns `Option`/`Except`.
-/

/-! ## Calendar (Python `datetime.date` semantics, proleptic Gregorian) -/

/-- Gregorian leap-year rule, as in Python `calendar.isleap`. -/
def isLeapYear (y : ℕ) : Bool := y % 4 == 0 && (y % 100 != 0 || y % 400 == 0)

/-- Length of month `m` (1-12) of year `y`, as in Python `calendar.monthrange`. -/
def daysInMonth (y m : ℕ) : ℕ :=
  if m = 2 then (if isLeapYear y then 29 else 28)
  else if m = 4 ∨ m = 6 ∨ m = 9 ∨ m = 11 then 30
  else 31

/-- Days in the months strictly before month `m` of year `y`. -/
def daysBeforeMonth (y m : ℕ) : ℕ :=
  (List.range (m - 1)).foldl (fun a i => a + daysInMonth y (i + 1)) 0

/-- Days in the years strictly before year `y` (year 1 is the first year). -/
def daysBeforeYear (y : ℕ) : ℕ :=
  365 * (y - 1) + (y - 1) / 4 + (y - 1) / 400 - (y - 1) / 100

/-- Python `datetime.date(y, m, d).toordinal()`: 0001-01-01 has ordinal 1. -/
def toOrdinal (y m d : ℕ) : ℕ := daysBeforeYear y + daysBeforeMonth y m + d

/-- The `datetime.date` constructor's validity check. -/
def validDate (y m d : ℕ) : Prop :=
  1 ≤ y ∧ y ≤ 9999 ∧ 1 ≤ m ∧ m ≤ 12 ∧ 1 ≤ d ∧ d ≤ daysInMonth y m

instance (y m d : ℕ) : Decidable (validDate y m d) := by
  unfold validDate; infer_instance

/-! Basic calendar lemmas used to compare instants with calendar dates. -/

theorem daysBeforeMonth_succ (y m : ℕ) (hm : 1 ≤ m) :
    daysBeforeMonth y (m + 1) = daysBeforeMonth y m + daysInMonth y m := by
  unfold daysBeforeMonth
  have h1 : m + 1 - 1 = (m - 1) + 1 := by omega
  rw [h1, List.range_succ, List.foldl_append]
  have h2 : m - 1 + 1 = m := by omega
  simp [h2]

theorem daysBeforeMonth_mono (y : ℕ) {m m' : ℕ} (hm : 1 ≤ m) (h : m ≤ m') :
    daysBeforeMonth y m ≤ daysBeforeMonth y m' := by
  induction m' with
  | zero => omega
  | succ k ih =>
      rcases Nat.lt_or_ge m (k + 1) with hlt | hge
      · have hk : 1 ≤ k := by omega
        calc daysBeforeMonth y m ≤ daysBeforeMonth y k := ih (by omega)
          _ ≤ daysBeforeMonth y (k + 1) := by
              rw [daysBeforeMonth_succ y k hk]; omega
      · have hmk : m = k + 1 := by omega
        simp [hmk]

theorem daysBeforeMonth_add_le (y : ℕ) {m : ℕ} (hm : 1 ≤ m) (hm' : m ≤ 12) :
    daysBeforeMonth y m + daysInMonth y m ≤ 365 + (if isLeapYear y then 1 else 0) := by
  have h13 : daysBeforeMonth y m + daysInMonth y m = daysBeforeMonth y (m + 1) :=
    (daysBeforeMonth_succ y m hm).symm
  rw [h13]
  have hmono : daysBeforeMonth y (m + 1) ≤ daysBeforeMonth y 13 :=
    daysBeforeMonth_mono y (by omega) (by omega)
  have h13v : daysBeforeMonth y 13 = 365 + (if isLeapYear y then 1 else 0) := by
    cases hl : isLeapYear y <;>
      simp [daysBeforeMonth, List.range_succ, daysInMonth, hl]
  omega

theorem isLeapYear_iff (y : ℕ) :
    isLeapYear y = true ↔ (y % 4 = 0 ∧ (y % 100 ≠ 0 ∨ y % 400 = 0)) := by
  unfold isLeapYear
  constructor
  · intro h
    simp only [Bool.and_eq_true, beq_iff_eq, Bool.or_eq_true, bne_iff_ne] at h
    tauto
  · intro h
    simp only [Bool.and_eq_true, beq_iff_eq, Bool.or_eq_true, bne_iff_ne]
    tauto

set_option maxHeartbeats 2000000 in
theorem daysBeforeYear_succ (y : ℕ) (hy : 1 ≤ y) :
    daysBeforeYear (y + 1) = daysBeforeYear y + 365 + (if isLeapYear y then 1 else 0) := by
  unfold daysBeforeYear
  by_cases hl : isLeapYear y = true
  · rw [if_pos hl]
    have hl' := (isLeapYear_iff y).mp hl
    omega
  · rw [if_neg hl]
    have hl' : ¬ (y % 4 = 0 ∧ (y % 100 ≠ 0 ∨ y % 400 = 0)) :=
      fun hc => hl ((isLeapYear_iff y).mpr hc)
    clear hl
    push_neg at hl'
    omega

theorem daysBeforeYear_mono {y y' : ℕ} (hy : 1 ≤ y) (h : y ≤ y') :
    daysBeforeYear y + 365 * (y' - y) ≤ daysBeforeYear y' := by
  induction y' with
  | zero => omega
  | succ k ih =>
      rcases Nat.lt_or_ge y (k + 1) with hlt | hge
      · have hk := ih (by omega)
        have hs := daysBeforeYear_succ k (by omega)
        have : (if isLeapYear k then 1 else 0) = 1 ∨
            (if isLeapYear k then 1 else 0) = 0 := by
          split <;> simp
        omega
      · have hyk : y = k + 1 := by omega
        simp [hyk]

/-- Day-of-year is bounded by the year length. -/
theorem dayOfYear_le (y m d : ℕ) (h : validDate y m d) :
    daysBeforeMonth y m + d ≤ 365 + (if isLeapYear y then 1 else 0) := by
  obtain ⟨h1, h2, h3, h4, h5, h6⟩ := h
  have := daysBeforeMonth_add_le y h3 h4
  omega

/-- Lexicographic order on calendar dates (the way Python compares two
`datetime` values that carry the same fixed offset). -/
def dateLex (a b : ℕ × ℕ × ℕ) : Prop :=
  a.1 < b.1 ∨ (a.1 = b.1 ∧ (a.2.1 < b.2.1 ∨ (a.2.1 = b.2.1 ∧ a.2.2 < b.2.2)))

instance (a b : ℕ × ℕ × ℕ) : Decidable (dateLex a b) := by
  unfold dateLex; infer_instance

theorem toOrdinal_lt_of_dateLex {y m d y' m' d' : ℕ}
    (hv : validDate y m d) (hv' : validDate y' m' d')
    (h : dateLex (y, m, d) (y', m', d')) :
    toOrdinal y m d < toOrdinal y' m' d' := by
  obtain ⟨a1, a2, a3, a4, a5, a6⟩ := hv
  obtain ⟨b1, b2, b3, b4, b5, b6⟩ := hv'
  simp only [dateLex] at h
  rcases h with hy | ⟨hy, hm | ⟨hm, hd⟩⟩
  · -- strictly earlier year: bound the day-of-year by the year length
    have hbound := dayOfYear_le y m d ⟨a1, a2, a3, a4, a5, a6⟩
    have hstep := daysBeforeYear_succ y a1
    have hmono := @daysBeforeYear_mono (y + 1) y' (by omega) (by omega)
    have hpos : 1 ≤ daysBeforeMonth y' m' + d' := by omega
    unfold toOrdinal
    omega
  · -- same year, strictly earlier month
    subst hy
    have hstep : daysBeforeMonth y m + daysInMonth y m = daysBeforeMonth y (m + 1) :=
      (daysBeforeMonth_succ y m a3).symm
    have hmono : daysBeforeMonth y (m + 1) ≤ daysBeforeMonth y m' :=
      daysBeforeMonth_mono y (by omega) (by omega)
    unfold toOrdinal
    omega
  · -- same year and month, earlier day
    subst hy; subst hm
    unfold toOrdinal
    omega

theorem toOrdinal_lt_iff_dateLex {y m d y' m' d' : ℕ}
    (hv : validDate y m d) (hv' : validDate y' m' d') :
    toOrdinal y m d < toOrdinal y' m' d' ↔ dateLex (y, m, d) (y', m', d') := by
  constructor
  · intro h
    by_contra hno
    rcases Nat.lt_trichotomy y y' with hy | hy | hy
    · exact hno (Or.inl hy)
    · subst hy
      rcases Nat.lt_trichotomy m m' with hm | hm | hm
      · exact hno (Or.inr ⟨rfl, Or.inl hm⟩)
      · subst hm
        rcases Nat.lt_trichotomy d d' with hd | hd | hd
        · exact hno (Or.inr ⟨rfl, Or.inr ⟨rfl, hd⟩⟩)
        · subst hd; omega
        · have := toOrdinal_lt_of_dateLex hv' hv (Or.inr ⟨rfl, Or.inr ⟨rfl, hd⟩⟩)
          omega
      · have := toOrdinal_lt_of_dateLex hv' hv (Or.inr ⟨rfl, Or.inl hm⟩)
        omega
    · have := toOrdinal_lt_of_dateLex hv' hv (Or.inl hy)
      omega
  · exact toOrdinal_lt_of_dateLex hv hv'

/-! ## Digit characters -/

/-- The ASCII digit character for `d < 10`. -/
def digChar (d : ℕ) : Char := Char.ofNat (48 + d)

/-- Numeric value of an ASCII digit character. -/
def charVal (c : Char) : ℕ := c.toNat - 48

/-- Value of a most-significant-first digit list. -/
def digitsVal (l : List ℕ) : ℕ := l.foldl (fun a d => 10 * a + d) 0

/-- Value of a most-significant-first list of ASCII digit characters. -/
def charsVal (l : List Char) : ℕ := l.foldl (fun a c => 10 * a + charVal c) 0

theorem charVal_digChar : ∀ d < 10, charVal (digChar d) = d := by decide

theorem isDigit_digChar : ∀ d < 10, (digChar d).isDigit = true := by decide

theorem digChar_ne_dash : ∀ d < 10, digChar d ≠ '-' := by decide

theorem digChar_ne_plus : ∀ d < 10, digChar d ≠ '+' := by decide

theorem digChar_ne_dot : ∀ d < 10, digChar d ≠ '.' := by decide

/-- The instant y-m-d 00:00 on a single naive local timeline, in seconds,
with day 0 = 0001-01-01 (so days-since-epoch ≡ `toordinal() - 1`): the form
in which store keys and the command handler's naive datetimes compare. -/
def veMidnight (y m d : ℕ) : ℕ := (toOrdinal y m d - 1) * 86400

/-! ## The rate store: table `Rates(effective_at DATETIME UNIQUE, value NUMERIC(13,4))` -/

/-- A stored rate row: (`effective_at` instant, `value`). -/
abbrev Rate := ℕ × ℚ

/-- The `Rates` table, in insertion order. -/
abbrev RateStore := List Rate

/-- The `effective_at` column. -/
def rateKeys (st : RateStore) : List ℕ := st.map Prod.fst

/-- Value stored under an `effective_at` key, if any. -/
def lookupRate (k : ℕ) (st : RateStore) : Option ℚ :=
  (st.find? (fun r => r.1 == k)).map Prod.snd

/-- The batch insert `acur.executemany("INSERT INTO Rates VALUES (%s, %s) ON CONFLICT DO NOTHING", rows)`:
each row is appended only when its `effective_at` key is absent (the UNIQUE
constraint makes the insert a no-op otherwise), and `rowcount` accumulates the
number of rows actually inserted. -/
def upsertMany (st : RateStore) : List Rate → RateStore × ℕ
  | [] => (st, 0)
  | r :: rs =>
      if r.1 ∈ rateKeys st then upsertMany st rs
      else
        let q := upsertMany (st ++ [r]) rs
        (q.1, q.2 + 1)

theorem rateKeys_append (st : RateStore) (r : Rate) :
    rateKeys (st ++ [r]) = rateKeys st ++ [r.1] := by
  simp [rateKeys]

theorem mem_rateKeys_upsertMany (st : RateStore) (rs : List Rate) {k : ℕ}
    (h : k ∈ rateKeys st) : k ∈ rateKeys (upsertMany st rs).1 := by
  induction rs generalizing st with
  | nil => simpa [upsertMany] using h
  | cons r rs ih =>
      by_cases hm : r.1 ∈ rateKeys st
      · simpa [upsertMany, hm] using ih st h
      · have h' : k ∈ rateKeys (st ++ [r]) := by
          rw [rateKeys_append]; exact List.mem_append_left _ h
        simpa [upsertMany, hm] using ih (st ++ [r]) h'

theorem batch_mem_rateKeys (st : RateStore) (rs : List Rate) {r : Rate} (h : r ∈ rs) :
    r.1 ∈ rateKeys (upsertMany st rs).1 := by
  induction rs generalizing st with
  | nil => cases h
  | cons a rs ih =>
      rcases List.mem_cons.mp h with h | h
      · subst h
        by_cases hm : r.1 ∈ rateKeys st
        · simpa [upsertMany, hm] using mem_rateKeys_upsertMany st rs hm
        · have h' : r.1 ∈ rateKeys (st ++ [r]) := by
            rw [rateKeys_append]; exact List.mem_append_right _ (List.mem_singleton_self _)
          simpa [upsertMany, hm] using mem_rateKeys_upsertMany (st ++ [r]) rs h'
      · by_cases hm : a.1 ∈ rateKeys st
        · simpa [upsertMany, hm] using ih st h
        · simpa [upsertMany, hm] using ih (st ++ [a]) h

theorem upsertMany_all_present (st : RateStore) (rs : List Rate)
    (h : ∀ r ∈ rs, r.1 ∈ rateKeys st) : upsertMany st rs = (st, 0) := by
  induction rs with
  | nil => rfl
  | cons a rs ih =>
      have ha := h a (List.mem_cons_self a rs)
      simp only [upsertMany, if_pos ha]
      exact ih fun r hr => h r (List.mem_cons_of_mem a hr)

theorem upsertMany_nodup (st : RateStore) (rs : List Rate)
    (h : (rateKeys st).Nodup) : (rateKeys (upsertMany st rs).1).Nodup := by
  induction rs generalizing st with
  | nil => simpa [upsertMany] using h
  | cons a rs ih =>
      by_cases hm : a.1 ∈ rateKeys st
      · simpa [upsertMany, hm] using ih st h
      · have hnd : (rateKeys (st ++ [a])).Nodup := by
          rw [rateKeys_append]
          refine List.Nodup.append h (List.nodup_singleton _) ?_
          intro x hx hx'
          rw [List.mem_singleton] at hx'
          subst hx'
          exact hm hx
        simpa [upsertMany, hm] using ih (st ++ [a]) hnd

theorem find?_append_of_some {p : Rate → Bool} {st : RateStore} {x : Rate}
    (h : st.find? p = some x) (l : RateStore) : (st ++ l).find? p = some x := by
  induction st with
  | nil => simp [List.find?] at h
  | cons a st ih =>
      by_cases hp : p a
      · rw [List.find?_cons_of_pos _ hp] at h
        rw [List.cons_append, List.find?_cons_of_pos _ hp]
        exact h
      · rw [List.find?_cons_of_neg _ (by simpa using hp)] at h
        rw [List.cons_append, List.find?_cons_of_neg _ (by simpa using hp)]
        exact ih h

theorem lookupRate_upsertMany (st : RateStore) (rs : List Rate) {k : ℕ} {v : ℚ}
    (h : lookupRate k st = some v) : lookupRate k (upsertMany st rs).1 = some v := by
  induction rs generalizing st with
  | nil => simpa [upsertMany] using h
  | cons a rs ih =>
      by_cases hm : a.1 ∈ rateKeys st
      · simpa [upsertMany, hm] using ih st h
      · have h' : lookupRate k (st ++ [a]) = some v := by
          simp only [lookupRate, Option.map_eq_some'] at h
          obtain ⟨x, hx, hxv⟩ := h
          simp only [lookupRate, Option.map_eq_some']
          exact ⟨x, find?_append_of_some hx [a], hxv⟩
        simpa [upsertMany, hm] using ih (st ++ [a]) h'

/-- Claim C3: `upsertMany` is idempotent on the `effective_at` key: the second
identical batch reports 0 newly inserted rows and leaves the store unchanged,
each distinct `effective_at` of the batch is stored exactly once (keys stay
duplicate-free and every batch key is present), and a value already stored for
an `effective_at` is never overwritten by a later insert of the same instant. -/
theorem C3_upsertMany_idempotent (st : RateStore) (rs : List Rate)
    (hnd : (rateKeys st).Nodup) :
    upsertMany (upsertMany st rs).1 rs = ((upsertMany st rs).1, 0)
    ∧ (rateKeys (upsertMany st rs).1).Nodup
    ∧ (∀ r ∈ rs, r.1 ∈ rateKeys (upsertMany st rs).1)
    ∧ (∀ k v, lookupRate k st = some v → lookupRate k (upsertMany st rs).1 = some v) := by
  refine ⟨?_, upsertMany_nodup st rs hnd, ?_, ?_⟩
  · exact upsertMany_all_present _ _ fun r hr => batch_mem_rateKeys st rs hr
  · exact fun r hr => batch_mem_rateKeys st rs hr
  · exact fun k v h => lookupRate_upsertMany st rs h

/-- Witness for C3 at a concrete store and batch. -/
theorem C3_upsertMany_idempotent_witness :
    upsertMany (upsertMany [] [((1 : ℕ), (5 : ℚ)), (2, 7/2)]).1 [((1 : ℕ), (5 : ℚ)), (2, 7/2)]
      = ((upsertMany [] [((1 : ℕ), (5 : ℚ)), (2, 7/2)]).1, 0)
    ∧ lookupRate 1 (upsertMany [((1 : ℕ), (5 : ℚ))] [(1, 9)]).1 = some 5 := by
  constructor
  · exact (C3_upsertMany_idempotent [] [(1, 5), (2, 7/2)] (by decide)).1
  · exact (C3_upsertMany_idempotent [(1, 5)] [(1, 9)] (by decide)).2.2.2 1 5 (by decide)

/-! ## IngestionService: `store_rates` (rates.py) -/

/-- The loop of `store_rates`: iterate the spreadsheet chunks yielded by `get_rate_chunks`
in listing order; per chunk run the batch upsert and commit, add `rowcount` to
`new_rows`, and `break` as soon as a chunk inserts zero rows.  Besides the
returned `new_rows` the embedding exposes the final committed store and the
number of chunks actually consumed from the generator (= spreadsheets fetched). -/
def store_rates (st : RateStore) : List (List Rate) → RateStore × ℕ × ℕ
  | [] => (st, 0, 0)
  | c :: cs =>
      let q := upsertMany st c
      if q.2 = 0 then (q.1, q.2, 1)
      else
        let r := store_rates q.1 cs
        (r.1, q.2 + r.2.1, 1 + r.2.2)

/-- Per-spreadsheet inserted-row counts when every chunk is processed
sequentially (no early stop): the claim-side view of the run. -/
def chunkCounts (st : RateStore) : List (List Rate) → List ℕ
  | [] => []
  | c :: cs => (upsertMany st c).2 :: chunkCounts (upsertMany st c).1 cs

/-- Index one past the first zero-contribution chunk, capped by the number of
chunks: the number of spreadsheets the early-stop rule processes. -/
def processedCount (st : RateStore) (cs : List (List Rate)) : ℕ :=
  min ((chunkCounts st cs).findIdx (fun n => n == 0) + 1) cs.length

theorem chunkCounts_length (st : RateStore) (cs : List (List Rate)) :
    (chunkCounts st cs).length = cs.length := by
  induction cs generalizing st with
  | nil => rfl
  | cons c cs ih => simp [chunkCounts, ih]

/-- Claim C1: spreadsheets are processed in listing order and processing stops
immediately after the first spreadsheet whose batch upsert inserts zero new
rows; spreadsheets after it are never fetched (the consumed-chunk count is
exactly the early-stop prefix length), and the returned value is the sum of
the inserted-row counts of all processed spreadsheets. -/
theorem C1_early_stop (st : RateStore) (cs : List (List Rate)) :
    (store_rates st cs).2.1 = ((chunkCounts st cs).take (processedCount st cs)).sum
    ∧ (store_rates st cs).2.2 = processedCount st cs := by
  induction cs generalizing st with
  | nil => simp [store_rates, chunkCounts, processedCount]
  | cons c cs ih =>
      by_cases h0 : (upsertMany st c).2 = 0
      · have hfi : (chunkCounts st (c :: cs)).findIdx (fun n => n == 0) = 0 := by
          simp [chunkCounts, List.findIdx_cons, h0]
        have hp : processedCount st (c :: cs) = 1 := by
          simp only [processedCount, hfi, List.length_cons]
          omega
        constructor
        · simp [store_rates, h0, hp, chunkCounts]
        · simp [store_rates, h0, hp]
      · obtain ⟨ih1, ih2⟩ := ih (upsertMany st c).1
        have hb : ((upsertMany st c).2 == 0) = false := by
          simpa using h0
        have hfi : (chunkCounts st (c :: cs)).findIdx (fun n => n == 0)
            = (chunkCounts (upsertMany st c).1 cs).findIdx (fun n => n == 0) + 1 := by
          simp [chunkCounts, List.findIdx_cons, hb]
        have hlen := chunkCounts_length (upsertMany st c).1 cs
        have hp : processedCount st (c :: cs)
            = processedCount (upsertMany st c).1 cs + 1 := by
          simp only [processedCount, hfi, List.length_cons]
          omega
        constructor
        · simp only [store_rates, if_neg h0, hp, chunkCounts, List.take_succ_cons,
            List.sum_cons]
          rw [ih1]
        · simp only [store_rates, if_neg h0, hp]
          omega

/-- Spec example for C1: chunk contributions [3, 0, ...] process exactly two
spreadsheets, never fetch the third, and return 3. -/
theorem store_rates_example :
    store_rates []
      [[(1, (1 : ℚ)), (2, 2), (3, 3)], [(1, (1 : ℚ))], [(9, (9 : ℚ))]]
      = ([(1, (1 : ℚ)), (2, 2), (3, 3)], 3, 2) := by
  decide

/-! ## ParseError behavior of the ingestion run (C7) -/

/-- The exception raised when a worksheet's date or value cell fails to parse
(`ValueError` from `strptime` / `InvalidOperation` from `Decimal`). -/
inductive ParseError where
  | mk
deriving DecidableEq

/-- One worksheet's extraction outcome. -/
abbrev SheetResult := Except ParseError Rate

/-- Rows yielded by the generator `(get_sheet_rate(sheet) for sheet in book)`:
it produces rows until the first failing worksheet, at which point the
exception escapes the generator (and `executemany`). -/
def chunkRows : List SheetResult → Option (List Rate)
  | [] => some []
  | .ok r :: c => (chunkRows c).map (fun l => r :: l)
  | .error _ :: _ => none

/-- The run `store_rates` with the per-sheet failure mode made explicit.  When a sheet
of the current spreadsheet raises, `executemany` propagates the exception
before `db_conn.commit()` runs, so none of that spreadsheet's rows are
committed and the whole run aborts with the error; otherwise the behavior is
that of `store_rates`.  Returns the committed store and the run's outcome. -/
def store_rates_exc (st : RateStore) :
    List (List SheetResult) → RateStore × Except ParseError ℕ
  | [] => (st, .ok 0)
  | c :: cs =>
      match chunkRows c with
      | none => (st, .error ParseError.mk)
      | some rows =>
          let q := upsertMany st rows
          if q.2 = 0 then (q.1, .ok 0)
          else
            match store_rates_exc q.1 cs with
            | (st2, .ok n) => (st2, .ok (q.2 + n))
            | (st2, .error e) => (st2, .error e)

theorem chunkRows_none_of_mem {c : List SheetResult}
    (h : Except.error ParseError.mk ∈ c) : chunkRows c = none := by
  induction c with
  | nil => cases h
  | cons a c ih =>
      cases a with
      | error e => rfl
      | ok r =>
          have h' : Except.error ParseError.mk ∈ c := by
            rcases List.mem_cons.mp h with h | h
            · exact Except.noConfusion h
            · exact h
          simp [chunkRows, ih h']

/-- Claim C7 counterexample: with a first spreadsheet containing a failing
worksheet and a second spreadsheet containing a fresh row, the run does NOT
continue — it fails as a whole (no returned count), contrary to the claim that
a `ParseError` "never causes the whole run to fail" and that the run
"continues to the next spreadsheet". -/
theorem C7_counterexample :
    ¬ ∃ n : ℕ, (store_rates_exc []
        [[Except.error ParseError.mk], [Except.ok ((1 : ℕ), (1 : ℚ))]]).2
        = Except.ok n := by
  intro hex
  obtain ⟨n, h⟩ := hex
  have hval : (store_rates_exc []
      [[Except.error ParseError.mk], [Except.ok ((1 : ℕ), (1 : ℚ))]]).2
      = Except.error ParseError.mk := rfl
  rw [hval] at h
  exact Except.noConfusion h

/-- Claim C7 (amended): a `ParseError` raised while extracting a spreadsheet
aborts the whole run at that spreadsheet: the error propagates out of
`store_rates`, the failing spreadsheet's rows are never committed (the store
is unchanged from before that spreadsheet), and later spreadsheets are not
fetched. -/
theorem C7_parse_error_aborts (st : RateStore) (c : List SheetResult)
    (cs : List (List SheetResult)) (h : Except.error ParseError.mk ∈ c) :
    store_rates_exc st (c :: cs) = (st, Except.error ParseError.mk) := by
  have hc : chunkRows c = none := chunkRows_none_of_mem h
  simp [store_rates_exc, hc]

/-- Witness for the amended C7 at a concrete run. -/
theorem C7_parse_error_aborts_witness :
    store_rates_exc [((5 : ℕ), (2 : ℚ))]
      [[Except.ok ((1 : ℕ), (1 : ℚ)), Except.error ParseError.mk],
       [Except.ok ((2 : ℕ), (3 : ℚ))]]
      = ([((5 : ℕ), (2 : ℚ))], Except.error ParseError.mk) :=
  C7_parse_error_aborts [((5 : ℕ), (2 : ℚ))] _ _
    (List.mem_cons_of_mem _ (List.mem_cons_self _ _))

/-! ## RateStore point query: `rate_at` (rates.py) / the query in `command_rate` -/

/-- Fold step realizing `ORDER BY effective_at DESC LIMIT 1`: keep the row
with the largest key. -/
def maxStep (acc : Option Rate) (r : Rate) : Option Rate :=
  match acc with
  | none => some r
  | some b => if b.1 < r.1 then some r else some b

/-- The query `rate_at(dt)`: `SELECT effective_at, value FROM Rates WHERE effective_at <= dt
ORDER BY effective_at DESC LIMIT 1` (the same query appears inline in
`command_rate`). -/
def rate_at (dt : ℕ) (st : RateStore) : Option Rate :=
  (st.filter (fun r => decide (r.1 ≤ dt))).foldl maxStep none

theorem foldl_maxStep_some (l : List Rate) (b : Rate) :
    ∃ r, l.foldl maxStep (some b) = some r ∧ (r = b ∨ r ∈ l) ∧ b.1 ≤ r.1
      ∧ ∀ x ∈ l, x.1 ≤ r.1 := by
  induction l generalizing b with
  | nil => exact ⟨b, rfl, Or.inl rfl, le_refl _, by simp⟩
  | cons a l ih =>
      by_cases hba : b.1 < a.1
      · obtain ⟨r, h1, h2, h3, h4⟩ := ih a
        refine ⟨r, ?_, ?_, by omega, ?_⟩
        · simpa [maxStep, hba] using h1
        · rcases h2 with h2 | h2
          · exact Or.inr (h2 ▸ List.mem_cons_self a l)
          · exact Or.inr (List.mem_cons_of_mem a h2)
        · intro x hx
          rcases List.mem_cons.mp hx with hx | hx
          · subst hx; omega
          · exact h4 x hx
      · obtain ⟨r, h1, h2, h3, h4⟩ := ih b
        refine ⟨r, ?_, ?_, h3, ?_⟩
        · simpa [maxStep, hba] using h1
        · rcases h2 with h2 | h2
          · exact Or.inl h2
          · exact Or.inr (List.mem_cons_of_mem a h2)
        · intro x hx
          rcases List.mem_cons.mp hx with hx | hx
          · subst hx; omega
          · exact h4 x hx

/-- Claim C4: `rate_at dt` returns the stored record with the greatest
`effective_at ≤ dt`, and returns empty exactly when no stored record is at or
before the instant. -/
theorem C4_rate_at (dt : ℕ) (st : RateStore) :
    (rate_at dt st = none ↔ ∀ r ∈ st, ¬ r.1 ≤ dt)
    ∧ (∀ r, rate_at dt st = some r →
        r ∈ st ∧ r.1 ≤ dt ∧ ∀ x ∈ st, x.1 ≤ dt → x.1 ≤ r.1) := by
  constructor
  · constructor
    · intro h r hr hle
      have hmem : r ∈ st.filter (fun r => decide (r.1 ≤ dt)) :=
        List.mem_filter.mpr ⟨hr, by simpa using hle⟩
      rcases hfl : st.filter (fun r => decide (r.1 ≤ dt)) with _ | ⟨a, l⟩
      · rw [hfl] at hmem; cases hmem
      · obtain ⟨x, hx, -⟩ := foldl_maxStep_some l a
        unfold rate_at at h
        rw [hfl] at h
        simp only [List.foldl_cons, maxStep] at h
        rw [hx] at h
        cases h
    · intro h
      have hfl : st.filter (fun r => decide (r.1 ≤ dt)) = [] := by
        rw [List.filter_eq_nil_iff]
        intro a ha
        simpa using h a ha
      unfold rate_at
      rw [hfl]
      rfl
  · intro r h
    unfold rate_at at h
    rcases hfl : st.filter (fun r => decide (r.1 ≤ dt)) with _ | ⟨a, l⟩
    · rw [hfl] at h; cases h
    · rw [hfl] at h
      simp only [List.foldl_cons, maxStep] at h
      obtain ⟨x, hx, hmem, hax, hall⟩ := foldl_maxStep_some l a
      rw [hx] at h
      obtain rfl : x = r := by injection h
      have hmem' : x ∈ st.filter (fun r => decide (r.1 ≤ dt)) := by
        rw [hfl]
        rcases hmem with h2 | h2
        · exact h2 ▸ List.mem_cons_self a l
        · exact List.mem_cons_of_mem a h2
      obtain ⟨hrst, hrle⟩ := List.mem_filter.mp hmem'
      refine ⟨hrst, by simpa using hrle, ?_⟩
      intro z hz hzle
      have hz' : z ∈ st.filter (fun r => decide (r.1 ≤ dt)) :=
        List.mem_filter.mpr ⟨hz, by simpa using hzle⟩
      rw [hfl] at hz'
      rcases List.mem_cons.mp hz' with hz2 | hz2
      · subst hz2; exact hax
      · exact hall z hz2

/-- The two stored dates of the spec's point-query example. -/
def pointQueryStore : RateStore :=
  [(veMidnight 2020 3 30, 1), (veMidnight 2020 4 2, 2)]

/-- Witness for C4 at the spec's example: querying 2020-04-01 finds the
2020-03-30 record; querying 2020-03-29 finds nothing. -/
theorem C4_rate_at_witness :
    rate_at (veMidnight 2020 3 29) pointQueryStore = none
    ∧ (veMidnight 2020 3 30, (1 : ℚ)) ∈ pointQueryStore
    ∧ veMidnight 2020 3 30 ≤ veMidnight 2020 4 1 := by
  refine ⟨(C4_rate_at (veMidnight 2020 3 29) pointQueryStore).1.mpr (by decide), ?_⟩
  have h := (C4_rate_at (veMidnight 2020 4 1) pointQueryStore).2
    (veMidnight 2020 3 30, (1 : ℚ)) (by decide)
  exact ⟨h.1, h.2.1⟩

/-! ## PollScheduler: `get_next_check_delay` / `update_timer` (main.py)

Time is modeled at second granularity: `day` is days since 0001-01-01 (a
Monday, so Python's `weekday()` is `day % 7`) and `sod` is the second of the
day. -/

/-- The `next_day` computation: tomorrow, with a weekend skipped forward to
Monday (`next_day += day_delta * (7 - next_day.weekday())`). -/
def nextCheckDay (day : ℕ) : ℕ :=
  if (day + 1) % 7 ≥ 5 then (day + 1) + (7 - (day + 1) % 7) else day + 1

/-- The delay `get_next_check_delay(short_term)`: 15 minutes when `short_term` holds on
a weekday, otherwise the seconds until `next_day.replace(hour=13, minute=0,
second=0)`. -/
def get_next_check_delay (short_term : Bool) (day sod : ℕ) : ℤ :=
  if short_term = true ∧ day % 7 < 5 then 900
  else ((nextCheckDay day : ℤ) * 86400 + 13 * 3600) - ((day : ℤ) * 86400 + (sod : ℤ))

/-- The scheduling decision of `update_timer`: `short_term=False` after a cycle
that found new rows, `short_term=True` otherwise. -/
def update_timer_delay (new_rates : ℕ) (day sod : ℕ) : ℤ :=
  if new_rates > 0 then get_next_check_delay false day sod
  else get_next_check_delay true day sod

theorem nextCheckDay_spec (day : ℕ) :
    day < nextCheckDay day ∧ nextCheckDay day % 7 < 5
    ∧ ∀ d : ℕ, day < d → d < nextCheckDay day → 5 ≤ d % 7 := by
  unfold nextCheckDay
  split_ifs with h
  · refine ⟨by omega, by omega, ?_⟩
    intro d h1 h2
    omega
  · refine ⟨by omega, by omega, ?_⟩
    intro d h1 h2
    omega

/-- Claim C5: the next delay is 900 seconds exactly when the last cycle found
zero new rows and today is a weekday; otherwise the delay targets 13:00 of the
next calendar day, with Saturday and Sunday skipped forward to Monday (the
target is the earliest weekday after today). -/
theorem C5_scheduler (n day sod : ℕ) (hs : sod < 86400) :
    (update_timer_delay n day sod = 900 ↔ (n = 0 ∧ day % 7 < 5))
    ∧ (¬ (n = 0 ∧ day % 7 < 5) →
        update_timer_delay n day sod
            = ((nextCheckDay day : ℤ) * 86400 + 13 * 3600) - ((day : ℤ) * 86400 + (sod : ℤ))
        ∧ day < nextCheckDay day ∧ nextCheckDay day % 7 < 5
        ∧ ∀ d : ℕ, day < d → d < nextCheckDay day → 5 ≤ d % 7) := by
  obtain ⟨hgt, hlt5, hall⟩ := nextCheckDay_spec day
  have hlong : ((nextCheckDay day : ℤ) * 86400 + 13 * 3600)
      - ((day : ℤ) * 86400 + (sod : ℤ)) ≠ 900 := by
    have : (day : ℤ) + 1 ≤ (nextCheckDay day : ℤ) := by exact_mod_cast hgt
    omega
  constructor
  · constructor
    · intro h
      by_contra hno
      rcases Nat.eq_zero_or_pos n with h0 | h0
      · subst h0
        have hwd : ¬ day % 7 < 5 := fun hc => hno ⟨rfl, hc⟩
        unfold update_timer_delay get_next_check_delay at h
        rw [if_neg (by omega)] at h
        rw [if_neg (by simp [hwd])] at h
        exact hlong h
      · unfold update_timer_delay get_next_check_delay at h
        rw [if_pos h0] at h
        rw [if_neg (by simp)] at h
        exact hlong h
    · intro ⟨h0, hwd⟩
      subst h0
      unfold update_timer_delay get_next_check_delay
      rw [if_neg (by omega)]
      rw [if_pos ⟨rfl, hwd⟩]
  · intro hno
    refine ⟨?_, hgt, hlt5, hall⟩
    rcases Nat.eq_zero_or_pos n with h0 | h0
    · subst h0
      have hwd : ¬ day % 7 < 5 := fun hc => hno ⟨rfl, hc⟩
      unfold update_timer_delay get_next_check_delay
      rw [if_neg (by omega)]
      rw [if_neg (by simp [hwd])]
    · unfold update_timer_delay get_next_check_delay
      rw [if_pos h0]
      rw [if_neg (by simp)]

/-- Witness for C5: a Tuesday (day ≡ 1 mod 7) after a cycle with zero new rows
gets a 900-second delay. -/
theorem C5_scheduler_witness : update_timer_delay 0 1 0 = 900 :=
  (C5_scheduler 0 1 0 (by omega)).1.mpr ⟨rfl, by omega⟩

/-- Spec example for C5: Friday (day ≡ 4 mod 7) at 14:00 after a cycle that
found 1 new row targets the following Monday at 13:00: 2 days and 23 hours
away, i.e. 255600 seconds. -/
theorem scheduler_friday_example : update_timer_delay 1 4 50400 = 255600 := by decide

/-! ## NotificationDispatcher: `broadcast_update` (main.py) -/

/-- The window annotation `value - LAG(value, 1) OVER (ORDER BY effective_at)`,
computed over the whole table (`st` is the table in ascending `effective_at`
order); the chronologically first row's change is NULL. -/
def lagChanges : List Rate → Option ℚ → List (ℕ × ℚ × Option ℚ)
  | [], _ => []
  | r :: rs, prev => (r.1, r.2, prev.map (fun p => r.2 - p)) :: lagChanges rs (some r.2)

/-- The dispatcher `broadcast_update`: fetch the `min(new_rates, 15)` most recent annotated
rows (`ORDER BY effective_at DESC LIMIT ?`), then walk `reversed(data)` —
oldest first — substituting the row's own rate when its change is NULL, and
emit one message per row. -/
def broadcast_update (new_rates : ℕ) (st : List Rate) : List (ℕ × ℚ × ℚ) :=
  (((lagChanges st none).reverse.take (min new_rates 15)).reverse).map
    (fun x => (x.1, x.2.1, x.2.2.getD x.2.1))

/-- Claim-side annotation: every record carries `change = value − previous
chronological value`; the store's oldest record carries its own value. -/
def changesFrom (prev : ℚ) : List Rate → List (ℕ × ℚ × ℚ)
  | [] => []
  | r :: rs => (r.1, r.2, r.2 - prev) :: changesFrom r.2 rs

def changesSpec : List Rate → List (ℕ × ℚ × ℚ)
  | [] => []
  | r :: rs => (r.1, r.2, r.2) :: changesFrom r.2 rs

theorem lagChanges_some_map (rs : List Rate) (p : ℚ) :
    (lagChanges rs (some p)).map (fun x => (x.1, x.2.1, x.2.2.getD x.2.1))
      = changesFrom p rs := by
  induction rs generalizing p with
  | nil => rfl
  | cons r rs ih => simp [lagChanges, changesFrom, ih]

theorem lagChanges_none_map (st : List Rate) :
    (lagChanges st none).map (fun x => (x.1, x.2.1, x.2.2.getD x.2.1))
      = changesSpec st := by
  cases st with
  | nil => rfl
  | cons r rs => simp [lagChanges, changesSpec, lagChanges_some_map]

theorem changesFrom_length (p : ℚ) (rs : List Rate) :
    (changesFrom p rs).length = rs.length := by
  induction rs generalizing p with
  | nil => rfl
  | cons r rs ih => simp [changesFrom, ih]

theorem changesSpec_length (st : List Rate) :
    (changesSpec st).length = st.length := by
  cases st with
  | nil => rfl
  | cons r rs => simp [changesSpec, changesFrom_length]

theorem reverse_take_reverse {α : Type} (l : List α) (k : ℕ) :
    (l.reverse.take k).reverse = l.drop (l.length - k) := by
  rcases le_or_lt l.length k with hk | hk
  · rw [List.take_of_length_le (by simpa using hk), List.reverse_reverse,
      Nat.sub_eq_zero_of_le hk, List.drop_zero]
  · have hsplit : l.reverse
        = (l.drop (l.length - k)).reverse ++ (l.take (l.length - k)).reverse := by
      rw [← List.reverse_append, List.take_append_drop]
    have hlen : ((l.drop (l.length - k)).reverse).length = k := by
      simp only [List.length_reverse, List.length_drop]
      omega
    rw [hsplit, List.take_left' hlen, List.reverse_reverse]

/-- Claim C6: after a cycle inserting `n` new rows the dispatcher emits, in
oldest-first order, exactly one message per queried record — the
`min(min n 15, store size)` most recent ones — each annotated with
`change = value − previous chronological value in the store` (the store's
oldest record falling back to its own value). -/
theorem C6_broadcast (n : ℕ) (st : List Rate) :
    broadcast_update n st = (changesSpec st).drop (st.length - min n 15)
    ∧ (broadcast_update n st).length = min (min n 15) st.length := by
  have h1 : broadcast_update n st
      = ((lagChanges st none).map (fun x => (x.1, x.2.1, x.2.2.getD x.2.1))).drop
          ((lagChanges st none).length - min n 15) := by
    unfold broadcast_update
    rw [reverse_take_reverse, List.map_drop]
  have hlaglen : (lagChanges st none).length = st.length := by
    have := changesSpec_length st
    rw [← lagChanges_none_map st] at this
    simpa using this
  rw [h1, lagChanges_none_map, hlaglen]
  refine ⟨rfl, ?_⟩
  simp only [List.length_drop, changesSpec_length]
  omega

/-- Spec example for C6: chronological values [10.0, 10.5, 10.2] yield, oldest
to newest, the messages with changes [own value, +0.5, −0.3]. -/
theorem broadcast_change_example :
    broadcast_update 3 [(1, 10), (2, 21/2), (3, 51/5)]
      = [(1, 10, 10), (2, 21/2, 1/2), (3, 51/5, -(3/10))] := by
  simp only [broadcast_update, lagChanges]
  norm_num

/-! ## RateExtractor: `get_sheet_rate` (rates.py)

The date cell's last whitespace token is parsed with
`strptime(token, "%d/%m/%Y")`, which yields a *naive* midnight, and then
`.astimezone(VE_TZ)` is applied.  Python's `astimezone` on a naive datetime
first interprets it in the *system* timezone and only then converts the
resulting instant to `VE_TZ` — so the instant compared against
`REDENOMINATION_DAY` is the sheet date's midnight in the host timezone.  The
host timezone is modeled as a fixed offset `hostOff` of seconds east of UTC
(Python offsets are strictly inside ±24 h). -/

/-- The UTC instant (seconds, day 0 = 0001-01-01) of the naive midnight
y-m-d interpreted in a timezone `off` seconds east of UTC. -/
def naiveInstantUTC (y m d : ℕ) (off : ℤ) : ℤ :=
  ((toOrdinal y m d : ℤ) - 1) * 86400 - off

/-- The constant `REDENOMINATION_DAY = datetime(2021, 10, 1, tzinfo=VE_TZ)`,
as a UTC instant (`VE_TZ` is -04:00, i.e. -14400 s east of UTC). -/
def REDENOMINATION_DAY : ℤ := naiveInstantUTC 2021 10 1 (-14400)

/-- The constant `REDENOMINATION_FACTOR = 1_000_000`. -/
def REDENOMINATION_FACTOR : ℚ := 1000000

/-- A worksheet as `get_sheet_rate` reads it: the calendar date written in
the header cell (parsed by `strptime` into a naive midnight, which
`astimezone` then interprets in the host timezone), plus the exact decimal
value of the data cell. -/
structure SheetData where
  year : ℕ
  month : ℕ
  day : ℕ
  raw : ℚ

/-- The extractor `get_sheet_rate` on a host whose system timezone is the
fixed offset `hostOff`: the (datetime, decimal) pair, dividing the value by
`REDENOMINATION_FACTOR` when `rate_date < REDENOMINATION_DAY`.  The returned
instant is the one `astimezone` preserves: the sheet's midnight in the host
timezone. -/
def get_sheet_rate (hostOff : ℤ) (s : SheetData) : ℤ × ℚ :=
  if naiveInstantUTC s.year s.month s.day hostOff < REDENOMINATION_DAY then
    (naiveInstantUTC s.year s.month s.day hostOff, s.raw / REDENOMINATION_FACTOR)
  else (naiveInstantUTC s.year s.month s.day hostOff, s.raw)

/-- Instants at midnight on one fixed naive timeline compare exactly as
their calendar dates. -/
theorem veMidnight_lt_iff {y m d y' m' d' : ℕ}
    (hv : validDate y m d) (hv' : validDate y' m' d') :
    veMidnight y m d < veMidnight y' m' d' ↔ dateLex (y, m, d) (y', m', d') := by
  unfold veMidnight
  rw [← toOrdinal_lt_iff_dateLex hv hv']
  have h1 : 1 ≤ toOrdinal y m d := by
    obtain ⟨-, -, -, -, h5, -⟩ := hv
    unfold toOrdinal
    omega
  have h1' : 1 ≤ toOrdinal y' m' d' := by
    obtain ⟨-, -, -, -, h5, -⟩ := hv'
    unfold toOrdinal
    omega
  constructor
  · intro h
    omega
  · intro h
    omega

/-- Claim C2 counterexample: on a host east of UTC-4 — here UTC, offset 0 —
the sheet dated exactly 2021-10-01 falls before `REDENOMINATION_DAY`
(2021-10-01 00:00 UTC < 2021-10-01 04:00 UTC), so its raw value 4.5 IS
divided by 1,000,000, contradicting the claim that a date not strictly
before 2021-10-01 is stored unchanged (the spec's own boundary example). -/
theorem C2_counterexample :
    (get_sheet_rate 0 ⟨2021, 10, 1, 9/2⟩).2 ≠ 9/2 := by
  have hc : naiveInstantUTC 2021 10 1 0 < REDENOMINATION_DAY := by decide
  unfold get_sheet_rate
  rw [if_pos hc]
  unfold REDENOMINATION_FACTOR
  norm_num

/-- Claim C2 (amended): on a host whose fixed system offset is at or west of
UTC-4 (`hostOff ≤ -14400`, and above -24 h as every Python offset is) — in
particular on the UTC-4 deployment host — the stored value equals the raw
value divided by 1,000,000 exactly when the sheet's date is strictly before
2021-10-01, and equals the raw value unchanged otherwise. -/
theorem C2_redenomination (hostOff : ℤ) (s : SheetData)
    (hv : validDate s.year s.month s.day)
    (hwest : hostOff ≤ -14400) (hbound : -86400 < hostOff) :
    (get_sheet_rate hostOff s).2
      = if dateLex (s.year, s.month, s.day) (2021, 10, 1) then s.raw / 1000000
        else s.raw := by
  have hiff := toOrdinal_lt_iff_dateLex hv (show validDate 2021 10 1 by decide)
  have hcmp : naiveInstantUTC s.year s.month s.day hostOff < REDENOMINATION_DAY
      ↔ dateLex (s.year, s.month, s.day) (2021, 10, 1) := by
    rw [← hiff]
    unfold naiveInstantUTC REDENOMINATION_DAY naiveInstantUTC
    constructor
    · intro h
      omega
    · intro h
      omega
  unfold get_sheet_rate REDENOMINATION_FACTOR
  by_cases h : dateLex (s.year, s.month, s.day) (2021, 10, 1)
  · rw [if_pos h, if_pos (hcmp.mpr h)]
  · rw [if_neg h, if_neg (fun hc => h (hcmp.mp hc))]

/-- Witness for the amended C2 on the UTC-4 host (`hostOff = -14400`), at the
spec's example records: 2021-09-30 with raw value 4,500,000.00 is stored as
4.5000, and 2021-10-01 with raw value 4.5000 is stored unchanged. -/
theorem C2_redenomination_witness :
    (get_sheet_rate (-14400) ⟨2021, 9, 30, 4500000⟩).2 = 9/2
    ∧ (get_sheet_rate (-14400) ⟨2021, 10, 1, 9/2⟩).2 = 9/2 := by
  constructor
  · rw [C2_redenomination (-14400) ⟨2021, 9, 30, 4500000⟩ (by decide) (by decide)
      (by decide)]
    rw [if_pos (by decide)]
    norm_num
  · rw [C2_redenomination (-14400) ⟨2021, 10, 1, 9/2⟩ (by decide) (by decide)
      (by decide)]
    rw [if_neg (by decide)]

/-! ## Date-string parsing: `try_parse_date` and the `/tasa` handler (main.py)

`FORMATS = ["%d/%m/%y", "%d/%m/%Y", "%d-%m-%y", "%d-%m-%Y", "%Y-%m-%d",
"%d/%m", "%d-%m"]`.  Each entry is embedded as the parser `_strptime` builds
for it: field regexes matched left to right, anchored, with no unconverted
remainder allowed, followed by the `datetime` constructor's validity check. -/

/-- The `%d` field: regex `3[01]|[12]\d|0[1-9]|[1-9]`.  In every format of
`FORMATS` the day field is followed by a separator or the end of the string,
so the two-digit alternatives apply exactly when two digits are present. -/
def parseDayTok : List Char → Option (ℕ × List Char)
  | c1 :: c2 :: rest =>
      if c1.isDigit ∧ c2.isDigit then
        if 1 ≤ 10 * charVal c1 + charVal c2 ∧ 10 * charVal c1 + charVal c2 ≤ 31 then
          some (10 * charVal c1 + charVal c2, rest)
        else none
      else if c1.isDigit ∧ 1 ≤ charVal c1 then some (charVal c1, c2 :: rest)
      else none
  | [c1] => if c1.isDigit ∧ 1 ≤ charVal c1 then some (charVal c1, []) else none
  | [] => none

/-- The `%m` field: regex `1[0-2]|0[1-9]|[1-9]`. -/
def parseMonthTok : List Char → Option (ℕ × List Char)
  | c1 :: c2 :: rest =>
      if c1.isDigit ∧ c2.isDigit then
        if 1 ≤ 10 * charVal c1 + charVal c2 ∧ 10 * charVal c1 + charVal c2 ≤ 12 then
          some (10 * charVal c1 + charVal c2, rest)
        else none
      else if c1.isDigit ∧ 1 ≤ charVal c1 then some (charVal c1, c2 :: rest)
      else none
  | [c1] => if c1.isDigit ∧ 1 ≤ charVal c1 then some (charVal c1, []) else none
  | [] => none

/-- The `%y` field: exactly two digits; `_strptime` maps 00-68 to 2000-2068 and
69-99 to 1969-1999. -/
def parseY2Tok : List Char → Option (ℕ × List Char)
  | c1 :: c2 :: rest =>
      if c1.isDigit ∧ c2.isDigit then
        some ((if 10 * charVal c1 + charVal c2 ≤ 68 then 2000 + 10 * charVal c1 + charVal c2
               else 1900 + 10 * charVal c1 + charVal c2), rest)
      else none
  | _ => none

/-- The `%Y` field: exactly four digits. -/
def parseY4Tok : List Char → Option (ℕ × List Char)
  | c1 :: c2 :: c3 :: c4 :: rest =>
      if c1.isDigit ∧ c2.isDigit ∧ c3.isDigit ∧ c4.isDigit then
        some (1000 * charVal c1 + 100 * charVal c2 + 10 * charVal c3 + charVal c4, rest)
      else none
  | _ => none

/-- A literal character of the format string. -/
def litTok (ch : Char) : List Char → Option (List Char)
  | c :: rest => if c = ch then some rest else none
  | [] => none

/-- The `datetime` constructor's check applied by `strptime` to the extracted
fields (an invalid calendar date raises `ValueError`). -/
def mkParsedDate (y m d : ℕ) : Option (ℕ × ℕ × ℕ) :=
  if validDate y m d then some (y, m, d) else none

/-- Format `"%d/%m/%y"`. -/
def fmt_dmy2_slash (s : List Char) : Option (ℕ × ℕ × ℕ) :=
  match parseDayTok s with
  | none => none
  | some (d, s) =>
    match litTok '/' s with
    | none => none
    | some s =>
      match parseMonthTok s with
      | none => none
      | some (m, s) =>
        match litTok '/' s with
        | none => none
        | some s =>
          match parseY2Tok s with
          | none => none
          | some (y, s) => if s = [] then mkParsedDate y m d else none

/-- Format `"%d/%m/%Y"`. -/
def fmt_dmY4_slash (s : List Char) : Option (ℕ × ℕ × ℕ) :=
  match parseDayTok s with
  | none => none
  | some (d, s) =>
    match litTok '/' s with
    | none => none
    | some s =>
      match parseMonthTok s with
      | none => none
      | some (m, s) =>
        match litTok '/' s with
        | none => none
        | some s =>
          match parseY4Tok s with
          | none => none
          | some (y, s) => if s = [] then mkParsedDate y m d else none

/-- Format `"%d-%m-%y"`. -/
def fmt_dmy2_dash (s : List Char) : Option (ℕ × ℕ × ℕ) :=
  match parseDayTok s with
  | none => none
  | some (d, s) =>
    match litTok '-' s with
    | none => none
    | some s =>
      match parseMonthTok s with
      | none => none
      | some (m, s) =>
        match litTok '-' s with
        | none => none
        | some s =>
          match parseY2Tok s with
          | none => none
          | some (y, s) => if s = [] then mkParsedDate y m d else none

/-- Format `"%d-%m-%Y"`. -/
def fmt_dmY4_dash (s : List Char) : Option (ℕ × ℕ × ℕ) :=
  match parseDayTok s with
  | none => none
  | some (d, s) =>
    match litTok '-' s with
    | none => none
    | some s =>
      match parseMonthTok s with
      | none => none
      | some (m, s) =>
        match litTok '-' s with
        | none => none
        | some s =>
          match parseY4Tok s with
          | none => none
          | some (y, s) => if s = [] then mkParsedDate y m d else none

/-- Format `"%Y-%m-%d"`. -/
def fmt_Ymd (s : List Char) : Option (ℕ × ℕ × ℕ) :=
  match parseY4Tok s with
  | none => none
  | some (y, s) =>
    match litTok '-' s with
    | none => none
    | some s =>
      match parseMonthTok s with
      | none => none
      | some (m, s) =>
        match litTok '-' s with
        | none => none
        | some s =>
          match parseDayTok s with
          | none => none
          | some (d, s) => if s = [] then mkParsedDate y m d else none

/-- Format `"%d/%m"`: the code appends `";;%Y"` to the format and `";;" + str(now().year)`
to the input, so the visible text must be exactly day/month and the year field
always yields the current year. -/
def fmt_dm_slash (currentYear : ℕ) (s : List Char) : Option (ℕ × ℕ × ℕ) :=
  match parseDayTok s with
  | none => none
  | some (d, s) =>
    match litTok '/' s with
    | none => none
    | some s =>
      match parseMonthTok s with
      | none => none
      | some (m, s) => if s = [] then mkParsedDate currentYear m d else none

/-- Format `"%d-%m"`, with the same current-year substitution. -/
def fmt_dm_dash (currentYear : ℕ) (s : List Char) : Option (ℕ × ℕ × ℕ) :=
  match parseDayTok s with
  | none => none
  | some (d, s) =>
    match litTok '-' s with
    | none => none
    | some s =>
      match parseMonthTok s with
      | none => none
      | some (m, s) => if s = [] then mkParsedDate currentYear m d else none

/-- The list `FORMATS`, in the order the loop tries them. -/
def formatList (currentYear : ℕ) : List (List Char → Option (ℕ × ℕ × ℕ)) :=
  [fmt_dmy2_slash, fmt_dmY4_slash, fmt_dmy2_dash, fmt_dmY4_dash, fmt_Ymd,
   fmt_dm_slash currentYear, fmt_dm_dash currentYear]

/-- The parser `try_parse_date`: first format that parses wins; `none` is the
`ValueError` raised after the loop. -/
def try_parse_date (currentYear : ℕ) (s : List Char) : Option (ℕ × ℕ × ℕ) :=
  (formatList currentYear).findSome? (fun f => f s)

/-- The messages `command_rate` can answer with. -/
inductive Reply where
  | invalidDate
  | tooEarly
  | noInfo
  | rateMsg (targetDate : ℕ) (effectiveAt : ℕ) (value : ℚ)
deriving DecidableEq

/-- Python `command.args.strip()`. -/
def stripChars (s : List Char) : List Char :=
  ((s.dropWhile (fun c => c.isWhitespace)).reverse.dropWhile
    (fun c => c.isWhitespace)).reverse

/-- The tail of `command_rate` once a target instant is fixed: reject dates
before 2020-03-30, otherwise run the point query.  The Bool records whether
the store was read. -/
def answer_rate (target : ℕ) (st : RateStore) : Reply × Bool :=
  if target < veMidnight 2020 3 30 then (.tooEarly, false)
  else
    match rate_at target st with
    | none => (.noInfo, true)
    | some r => (.rateMsg target r.1 r.2, true)

/-- The handler `command_rate` (the `/tasa` command): with an argument, strip and parse it,
answering the invalid-date message on failure; without one, use the current
instant. -/
def command_rate (currentYear : ℕ) (nowInstant : ℕ) (st : RateStore)
    (args : Option (List Char)) : Reply × Bool :=
  match args with
  | some s =>
      match try_parse_date currentYear (stripChars s) with
      | none => (.invalidDate, false)
      | some (y, m, d) => answer_rate (veMidnight y m d) st
  | none => answer_rate nowInstant st

theorem findSome?_cons_some {α β : Type} {f : α → Option β} {a : α} {l : List α}
    {b : β} (h : f a = some b) : (a :: l).findSome? f = some b := by
  simp [List.findSome?_cons, h]

theorem findSome?_cons_none {α β : Type} {f : α → Option β} {a : α} {l : List α}
    (h : f a = none) : (a :: l).findSome? f = l.findSome? f := by
  simp [List.findSome?_cons, h]

/-- Claim C10: `try_parse_date` tries the seven formats in their fixed order
and returns the first successful parse; the two year-less formats substitute
the current year; it fails exactly when no format matches; and on failure the
`/tasa` handler replies with the invalid-date message without reading the
store. -/
theorem C10_try_parse_date (cy : ℕ) (s : List Char) (now : ℕ) (st : RateStore) :
    (try_parse_date cy s = none ↔
      (fmt_dmy2_slash s = none ∧ fmt_dmY4_slash s = none ∧ fmt_dmy2_dash s = none
        ∧ fmt_dmY4_dash s = none ∧ fmt_Ymd s = none
        ∧ fmt_dm_slash cy s = none ∧ fmt_dm_dash cy s = none))
    ∧ (∀ r, try_parse_date cy s = some r →
        fmt_dmy2_slash s = some r
        ∨ (fmt_dmy2_slash s = none ∧ fmt_dmY4_slash s = some r)
        ∨ (fmt_dmy2_slash s = none ∧ fmt_dmY4_slash s = none
            ∧ fmt_dmy2_dash s = some r)
        ∨ (fmt_dmy2_slash s = none ∧ fmt_dmY4_slash s = none
            ∧ fmt_dmy2_dash s = none ∧ fmt_dmY4_dash s = some r)
        ∨ (fmt_dmy2_slash s = none ∧ fmt_dmY4_slash s = none
            ∧ fmt_dmy2_dash s = none ∧ fmt_dmY4_dash s = none ∧ fmt_Ymd s = some r)
        ∨ (fmt_dmy2_slash s = none ∧ fmt_dmY4_slash s = none
            ∧ fmt_dmy2_dash s = none ∧ fmt_dmY4_dash s = none ∧ fmt_Ymd s = none
            ∧ fmt_dm_slash cy s = some r)
        ∨ (fmt_dmy2_slash s = none ∧ fmt_dmY4_slash s = none
            ∧ fmt_dmy2_dash s = none ∧ fmt_dmY4_dash s = none ∧ fmt_Ymd s = none
            ∧ fmt_dm_slash cy s = none ∧ fmt_dm_dash cy s = some r))
    ∧ (∀ y m d, fmt_dm_slash cy s = some (y, m, d) → y = cy)
    ∧ (∀ y m d, fmt_dm_dash cy s = some (y, m, d) → y = cy)
    ∧ (try_parse_date cy (stripChars s) = none →
        command_rate cy now st (some s) = (.invalidDate, false)) := by
  refine ⟨?_, ?_, ?_, ?_, ?_⟩
  · unfold try_parse_date formatList
    cases h1 : fmt_dmy2_slash s with
    | some r => simp [List.findSome?_cons, h1]
    | none =>
    cases h2 : fmt_dmY4_slash s with
    | some r => simp [List.findSome?_cons, h1, h2]
    | none =>
    cases h3 : fmt_dmy2_dash s with
    | some r => simp [List.findSome?_cons, h1, h2, h3]
    | none =>
    cases h4 : fmt_dmY4_dash s with
    | some r => simp [List.findSome?_cons, h1, h2, h3, h4]
    | none =>
    cases h5 : fmt_Ymd s with
    | some r => simp [List.findSome?_cons, h1, h2, h3, h4, h5]
    | none =>
    cases h6 : fmt_dm_slash cy s with
    | some r => simp [List.findSome?_cons, h1, h2, h3, h4, h5, h6]
    | none =>
    cases h7 : fmt_dm_dash cy s with
    | some r => simp [List.findSome?_cons, h1, h2, h3, h4, h5, h6, h7]
    | none => simp [List.findSome?_cons, h1, h2, h3, h4, h5, h6, h7]
  · intro r h
    unfold try_parse_date formatList at h
    cases h1 : fmt_dmy2_slash s with
    | some r1 =>
        simp only [List.findSome?_cons, h1] at h
        exact Or.inl h
    | none =>
    simp only [List.findSome?_cons, h1] at h
    cases h2 : fmt_dmY4_slash s with
    | some r2 =>
        simp only [List.findSome?_cons, h2] at h
        exact Or.inr (Or.inl ⟨rfl, h⟩)
    | none =>
    simp only [List.findSome?_cons, h2] at h
    cases h3 : fmt_dmy2_dash s with
    | some r3 =>
        simp only [List.findSome?_cons, h3] at h
        exact Or.inr (Or.inr (Or.inl ⟨rfl, rfl, h⟩))
    | none =>
    simp only [List.findSome?_cons, h3] at h
    cases h4 : fmt_dmY4_dash s with
    | some r4 =>
        simp only [List.findSome?_cons, h4] at h
        exact Or.inr (Or.inr (Or.inr (Or.inl ⟨rfl, rfl, rfl, h⟩)))
    | none =>
    simp only [List.findSome?_cons, h4] at h
    cases h5 : fmt_Ymd s with
    | some r5 =>
        simp only [List.findSome?_cons, h5] at h
        exact Or.inr (Or.inr (Or.inr (Or.inr (Or.inl ⟨rfl, rfl, rfl, rfl, h⟩))))
    | none =>
    simp only [List.findSome?_cons, h5] at h
    cases h6 : fmt_dm_slash cy s with
    | some r6 =>
        simp only [List.findSome?_cons, h6] at h
        exact Or.inr (Or.inr (Or.inr (Or.inr (Or.inr (Or.inl
          ⟨rfl, rfl, rfl, rfl, rfl, h⟩)))))
    | none =>
    simp only [List.findSome?_cons, h6] at h
    cases h7 : fmt_dm_dash cy s with
    | some r7 =>
        simp only [List.findSome?_cons, h7] at h
        exact Or.inr (Or.inr (Or.inr (Or.inr (Or.inr (Or.inr
          ⟨rfl, rfl, rfl, rfl, rfl, rfl, h⟩)))))
    | none =>
    simp only [List.findSome?_cons, h7, List.findSome?_nil] at h
    exact Option.noConfusion h
  · intro y m d h
    unfold fmt_dm_slash at h
    cases hd : parseDayTok s with
    | none => simp [hd] at h
    | some p =>
        simp only [hd] at h
        cases hl : litTok '/' p.2 with
        | none => simp [hl] at h
        | some s2 =>
            simp only [hl] at h
            cases hm : parseMonthTok s2 with
            | none => simp [hm] at h
            | some q =>
                simp only [hm] at h
                by_cases he : q.2 = []
                · rw [if_pos he] at h
                  unfold mkParsedDate at h
                  by_cases hvd : validDate cy q.1 p.1
                  · rw [if_pos hvd] at h
                    injection h with h'
                    exact (congrArg Prod.fst h').symm
                  · rw [if_neg hvd] at h; cases h
                · rw [if_neg he] at h; cases h
  · intro y m d h
    unfold fmt_dm_dash at h
    cases hd : parseDayTok s with
    | none => simp [hd] at h
    | some p =>
        simp only [hd] at h
        cases hl : litTok '-' p.2 with
        | none => simp [hl] at h
        | some s2 =>
            simp only [hl] at h
            cases hm : parseMonthTok s2 with
            | none => simp [hm] at h
            | some q =>
                simp only [hm] at h
                by_cases he : q.2 = []
                · rw [if_pos he] at h
                  unfold mkParsedDate at h
                  by_cases hvd : validDate cy q.1 p.1
                  · rw [if_pos hvd] at h
                    injection h with h'
                    exact (congrArg Prod.fst h').symm
                  · rw [if_neg hvd] at h; cases h
                · rw [if_neg he] at h; cases h
  · intro hnone
    unfold command_rate
    simp only [hnone]

/-- Witness for C10: "hola" matches no format; the handler answers the
invalid-date message and does not read the store. -/
theorem C10_try_parse_date_witness :
    try_parse_date 2025 ('h' :: 'o' :: 'l' :: 'a' :: []) = none
    ∧ command_rate 2025 0 [] (some ('h' :: 'o' :: 'l' :: 'a' :: []))
      = (Reply.invalidDate, false) := by
  have h := C10_try_parse_date 2025 ('h' :: 'o' :: 'l' :: 'a' :: []) 0 []
  exact ⟨h.1.mpr (by decide), h.2.2.2.2 (by decide)⟩

/-- Sanity examples of the embedded `strptime` formats: a full date parses via
`%d/%m/%Y` (after `%d/%m/%y` fails on the leftover digits), and "29/02" parses
exactly when the current year is a leap year. -/
theorem try_parse_date_examples :
    try_parse_date 2025
      ('2' :: '0' :: '/' :: '0' :: '7' :: '/' :: '2' :: '0' :: '2' :: '5' :: [])
      = some (2025, 7, 20)
    ∧ try_parse_date 2025 ('2' :: '9' :: '/' :: '0' :: '2' :: []) = none
    ∧ try_parse_date 2024 ('2' :: '9' :: '/' :: '0' :: '2' :: [])
      = some (2024, 2, 29) := by
  decide

/-! ## Storage codecs (database.py)

`adapt_decimal` / `adapt_datetime_iso` render a value to TEXT and
`convert_decimal` / `convert_datetime` parse it back; the `str.encode` /
`bytes.decode` pair in between is the identity on these ASCII strings.  The
embedding covers the finite decimals and the fixed-offset (or naive)
datetimes the program stores. -/

/-- A finite Python `Decimal`: sign, coefficient digit string (most
significant first), exponent — the fields of `Decimal.as_tuple()`. -/
structure DecimalRepr where
  sign : Bool
  digits : List ℕ
  exp : ℤ

/-- Well-formedness of the coefficient: a nonempty string of digits. -/
def DecimalRepr.wf (x : DecimalRepr) : Prop :=
  x.digits ≠ [] ∧ ∀ d ∈ x.digits, d < 10

/-- Exact rational value of a finite decimal. -/
def DecimalRepr.val (x : DecimalRepr) : ℚ :=
  (if x.sign then -1 else 1) * (digitsVal x.digits : ℚ) * (10 : ℚ) ^ x.exp

/-- Decimal digits of `n`, most significant first (`str(n)`). -/
def natToChars (n : ℕ) : List Char :=
  if n = 0 then ['0'] else ((Nat.digits 10 n).reverse.map digChar)

/-- The `dotplace` of `_pydecimal.__str__`: the digit position of the decimal
point, `leftdigits = exp + len(digits)` in the non-scientific case (exponent
≤ 0 and adjusted exponent > -7), 1 in scientific notation. -/
def decDotplace (x : DecimalRepr) : ℤ :=
  if x.exp ≤ 0 ∧ -6 < x.exp + (x.digits.length : ℤ) then x.exp + (x.digits.length : ℤ)
  else 1

/-- The digits-and-point part of `str(Decimal)`. -/
def decBody (x : DecimalRepr) : List Char :=
  if decDotplace x ≤ 0 then
    '0' :: '.' :: (List.replicate (-decDotplace x).toNat '0' ++ x.digits.map digChar)
  else if (x.digits.length : ℤ) ≤ decDotplace x then
    x.digits.map digChar ++ List.replicate (decDotplace x - (x.digits.length : ℤ)).toNat '0'
  else
    (x.digits.map digChar).take (decDotplace x).toNat
      ++ '.' :: (x.digits.map digChar).drop (decDotplace x).toNat

/-- The printed exponent `leftdigits - dotplace`. -/
def decExpval (x : DecimalRepr) : ℤ := x.exp + (x.digits.length : ℤ) - decDotplace x

/-- Render `str(Decimal)` — the `__str__` algorithm of `_pydecimal` for finite
values, used by `adapt_decimal` (format `E%+d` for a nonzero exponent). -/
def adapt_decimal (x : DecimalRepr) : List Char :=
  (if x.sign then ['-'] else []) ++ decBody x ++
  (if decExpval x = 0 then []
   else 'E' :: (if decExpval x < 0 then '-' else '+') :: natToChars (decExpval x).natAbs)

/-- A parsed numeric string as `Decimal(str)` stores it, up to numeric value:
sign, coefficient, exponent. -/
structure DecVal where
  sign : Bool
  coeff : ℕ
  exp : ℤ

def DecVal.val (x : DecVal) : ℚ :=
  (if x.sign then -1 else 1) * (x.coeff : ℚ) * (10 : ℚ) ^ x.exp

/-- Optional leading sign of a numeric string. -/
def parseSign : List Char → Bool × List Char
  | [] => (false, [])
  | c :: t =>
      if c = '-' then (true, t)
      else if c = '+' then (false, t)
      else (false, c :: t)

/-- Longest digit prefix and the rest. -/
def spanDigits (cs : List Char) : List Char × List Char :=
  (cs.takeWhile Char.isDigit, cs.dropWhile Char.isDigit)

/-- Exponent suffix after the `E`: optional sign and a nonempty digit string
reaching the end of the input. -/
def parseExpTail (t : List Char) : Option ℤ :=
  if (spanDigits (parseSign t).2).1 = [] ∨ (spanDigits (parseSign t).2).2 ≠ [] then none
  else some (if (parseSign t).1 then -(charsVal (spanDigits (parseSign t).2).1 : ℤ)
             else (charsVal (spanDigits (parseSign t).2).1 : ℤ))

/-- Optional exponent part (`E`/`e`), which must end the string. -/
def parseExpPart (cs : List Char) : Option ℤ :=
  if cs = [] then some 0
  else if cs.head? = some 'E' ∨ cs.head? = some 'e' then parseExpTail cs.tail
  else none

/-- The optional fractional part: digits after a leading `'.'`. -/
def fracSplit (cs : List Char) : List Char × List Char :=
  if cs.head? = some '.' then spanDigits cs.tail else ([], cs)

/-- Parse `Decimal(string)` after the optional sign: digits with an optional
fractional part (at least one digit overall) and an optional exponent; the
coefficient is the concatenated digit string, the stored exponent is the
written exponent minus the number of fractional digits. -/
def convert_decimal_core (sg : Bool) (cs1 : List Char) : Option DecVal :=
  if (spanDigits cs1).1 = [] ∧ (fracSplit (spanDigits cs1).2).1 = [] then none
  else
    (parseExpPart (fracSplit (spanDigits cs1).2).2).map (fun e =>
      ⟨sg, charsVal ((spanDigits cs1).1 ++ (fracSplit (spanDigits cs1).2).1),
        e - ((fracSplit (spanDigits cs1).2).1.length : ℤ)⟩)

/-- The converter `convert_decimal` = `Decimal(bytes.decode())` on a finite numeric string. -/
def convert_decimal (cs : List Char) : Option DecVal :=
  convert_decimal_core (parseSign cs).1 (parseSign cs).2

theorem charsVal_aux (ds : List ℕ) (h : ∀ d ∈ ds, d < 10) (a : ℕ) :
    (ds.map digChar).foldl (fun acc c => 10 * acc + charVal c) a
      = ds.foldl (fun acc d => 10 * acc + d) a := by
  induction ds generalizing a with
  | nil => rfl
  | cons d ds ih =>
      simp only [List.map_cons, List.foldl_cons]
      rw [charVal_digChar d (h d (List.mem_cons_self d ds))]
      exact ih (fun x hx => h x (List.mem_cons_of_mem d hx)) _

theorem charsVal_map_digChar (ds : List ℕ) (h : ∀ d ∈ ds, d < 10) :
    charsVal (ds.map digChar) = digitsVal ds := charsVal_aux ds h 0

theorem foldl_digits_zero (k : ℕ) :
    (List.replicate k 0).foldl (fun acc d => 10 * acc + d) 0 = 0 := by
  induction k with
  | zero => rfl
  | succ k ih => simpa [List.replicate_succ] using ih

theorem digitsVal_leading_zeros (k : ℕ) (ds : List ℕ) :
    digitsVal (List.replicate k 0 ++ ds) = digitsVal ds := by
  unfold digitsVal
  rw [List.foldl_append, foldl_digits_zero]

/-- The first character of the rest is not a digit (or there is no rest). -/
def headNotDigit : List Char → Prop
  | [] => True
  | c :: _ => c.isDigit = false

theorem takeWhile_digits (ds : List ℕ) (h : ∀ d ∈ ds, d < 10) (rest : List Char)
    (hr : headNotDigit rest) :
    (ds.map digChar ++ rest).takeWhile Char.isDigit = ds.map digChar := by
  induction ds with
  | nil =>
      cases rest with
      | nil => rfl
      | cons c t =>
          have hc : c.isDigit = false := hr
          simp [List.takeWhile_cons, hc]
  | cons d ds ih =>
      have hd := isDigit_digChar d (h d (List.mem_cons_self d ds))
      simp only [List.map_cons, List.cons_append, List.takeWhile_cons, hd]
      rw [ih (fun x hx => h x (List.mem_cons_of_mem d hx))]
      simp

theorem dropWhile_digits (ds : List ℕ) (h : ∀ d ∈ ds, d < 10) (rest : List Char)
    (hr : headNotDigit rest) :
    (ds.map digChar ++ rest).dropWhile Char.isDigit = rest := by
  induction ds with
  | nil =>
      cases rest with
      | nil => rfl
      | cons c t =>
          have hc : c.isDigit = false := hr
          simp [List.dropWhile_cons, hc]
  | cons d ds ih =>
      have hd := isDigit_digChar d (h d (List.mem_cons_self d ds))
      simp only [List.map_cons, List.cons_append, List.dropWhile_cons, hd]
      simpa using ih (fun x hx => h x (List.mem_cons_of_mem d hx))

theorem spanDigits_append (ds : List ℕ) (h : ∀ d ∈ ds, d < 10) (rest : List Char)
    (hr : headNotDigit rest) :
    spanDigits (ds.map digChar ++ rest) = (ds.map digChar, rest) := by
  unfold spanDigits
  rw [takeWhile_digits ds h rest hr, dropWhile_digits ds h rest hr]

theorem foldr_eq_ofDigits (l : List ℕ) :
    l.foldr (fun d acc => 10 * acc + d) 0 = Nat.ofDigits 10 l := by
  induction l with
  | nil => simp [Nat.ofDigits]
  | cons d l ih =>
      simp only [List.foldr_cons, Nat.ofDigits_cons, ih]
      ring

theorem digitsVal_reverse_digits (n : ℕ) :
    digitsVal ((Nat.digits 10 n).reverse) = n := by
  unfold digitsVal
  rw [List.foldl_reverse]
  have h := foldr_eq_ofDigits (Nat.digits 10 n)
  have h2 : (Nat.ofDigits 10 (Nat.digits 10 n) : ℕ) = n := by
    exact_mod_cast Nat.ofDigits_digits 10 n
  calc (Nat.digits 10 n).foldr (fun x y => 10 * y + x) 0
      = Nat.ofDigits 10 (Nat.digits 10 n) := foldr_eq_ofDigits _
    _ = n := h2

theorem natToChars_spec (n : ℕ) :
    (∀ c ∈ natToChars n, c.isDigit = true) ∧ natToChars n ≠ []
      ∧ charsVal (natToChars n) = n := by
  unfold natToChars
  by_cases h : n = 0
  · subst h
    rw [if_pos rfl]
    refine ⟨?_, by simp, by decide⟩
    intro c hc
    rw [List.mem_singleton] at hc
    subst hc
    decide
  · rw [if_neg h]
    have hlt : ∀ d ∈ (Nat.digits 10 n).reverse, d < 10 := by
      intro d hd
      rw [List.mem_reverse] at hd
      exact Nat.digits_lt_base (by omega) hd
    refine ⟨?_, ?_, ?_⟩
    · intro c hc
      rw [List.mem_map] at hc
      obtain ⟨d, hd, rfl⟩ := hc
      exact isDigit_digChar d (hlt d hd)
    · simp only [ne_eq, List.map_eq_nil_iff, List.reverse_eq_nil_iff]
      exact Nat.digits_ne_nil_iff_ne_zero.mpr h
    · rw [charsVal_map_digChar _ hlt, digitsVal_reverse_digits]

theorem parseSign_dash (t : List Char) : parseSign ('-' :: t) = (true, t) := by
  show (if '-' = '-' then (true, t)
    else if '-' = '+' then (false, t) else (false, '-' :: t)) = (true, t)
  rw [if_pos rfl]

theorem parseSign_plus (t : List Char) : parseSign ('+' :: t) = (false, t) := by
  show (if '+' = '-' then (true, t)
    else if '+' = '+' then (false, t) else (false, '+' :: t)) = (false, t)
  rw [if_neg (by decide), if_pos rfl]

theorem parseSign_other {c : Char} (t : List Char) (h1 : c ≠ '-') (h2 : c ≠ '+') :
    parseSign (c :: t) = (false, c :: t) := by
  show (if c = '-' then (true, t)
    else if c = '+' then (false, t) else (false, c :: t)) = (false, c :: t)
  rw [if_neg h1, if_neg h2]

theorem fracSplit_not_dot {c : Char} (t : List Char) (h : c ≠ '.') :
    fracSplit (c :: t) = ([], c :: t) := by
  unfold fracSplit
  rw [if_neg (by simp [h])]

theorem fracSplit_dot (t : List Char) : fracSplit ('.' :: t) = spanDigits t := by
  unfold fracSplit
  rw [if_pos (show ('.' :: t).head? = some '.' from rfl)]
  rfl

theorem parseExpPart_E (t : List Char) : parseExpPart ('E' :: t) = parseExpTail t := by
  unfold parseExpPart
  rw [if_neg (by simp), if_pos (by simp)]
  rfl

theorem natToChars_as_map (n : ℕ) :
    ∃ ds : List ℕ, (∀ d ∈ ds, d < 10) ∧ natToChars n = ds.map digChar := by
  unfold natToChars
  by_cases h : n = 0
  · subst h
    rw [if_pos rfl]
    exact ⟨[0], by decide, rfl⟩
  · rw [if_neg h]
    refine ⟨(Nat.digits 10 n).reverse, ?_, rfl⟩
    intro d hd
    rw [List.mem_reverse] at hd
    exact Nat.digits_lt_base (by omega) hd

theorem spanDigits_natToChars (n : ℕ) : spanDigits (natToChars n) = (natToChars n, []) := by
  obtain ⟨ds, hds, heq⟩ := natToChars_as_map n
  rw [heq]
  have h := spanDigits_append ds hds [] trivial
  rw [List.append_nil] at h
  exact h

theorem parseExpTail_signed (n : ℕ) :
    parseExpTail ('-' :: natToChars n) = some (-(n : ℤ))
    ∧ parseExpTail ('+' :: natToChars n) = some (n : ℤ) := by
  obtain ⟨hdig, hne, hval⟩ := natToChars_spec n
  constructor
  · unfold parseExpTail
    rw [parseSign_dash, spanDigits_natToChars]
    rw [if_neg (by simp [hne])]
    simp [hval]
  · unfold parseExpTail
    rw [parseSign_plus, spanDigits_natToChars]
    rw [if_neg (by simp [hne])]
    simp [hval]

theorem parseExpPart_shape (ev : ℤ) :
    parseExpPart (if ev = 0 then []
        else 'E' :: (if ev < 0 then '-' else '+') :: natToChars ev.natAbs)
      = some ev := by
  by_cases hev : ev = 0
  · rw [if_pos hev, hev]
    rfl
  · rw [if_neg hev, parseExpPart_E]
    by_cases hlt : ev < 0
    · rw [if_pos hlt, (parseExpTail_signed ev.natAbs).1]
      congr 1
      omega
    · rw [if_neg hlt, (parseExpTail_signed ev.natAbs).2]
      congr 1
      omega

theorem headNotDigit_expPart (ev : ℤ) :
    headNotDigit (if ev = 0 then []
        else 'E' :: (if ev < 0 then '-' else '+') :: natToChars ev.natAbs) := by
  by_cases hev : ev = 0
  · rw [if_pos hev]
    trivial
  · rw [if_neg hev]
    show 'E'.isDigit = false
    decide

theorem fracSplit_expPart (ev : ℤ) :
    fracSplit (if ev = 0 then []
        else 'E' :: (if ev < 0 then '-' else '+') :: natToChars ev.natAbs)
      = ([], (if ev = 0 then []
          else 'E' :: (if ev < 0 then '-' else '+') :: natToChars ev.natAbs)) := by
  by_cases hev : ev = 0
  · rw [if_pos hev]
    rfl
  · rw [if_neg hev]
    exact fracSplit_not_dot _ (by decide)

/-- Parsing a rendered numeric string of the canonical shape recovers the
sign, the concatenated coefficient digits, and the exponent. -/
theorem convert_core_shape (sg : Bool) (ip fp : List ℕ) (ev : ℤ)
    (hip : ip ≠ []) (h1 : ∀ d ∈ ip, d < 10) (h2 : ∀ d ∈ fp, d < 10) :
    convert_decimal_core sg
        (ip.map digChar
          ++ (if fp = [] then [] else '.' :: fp.map digChar)
          ++ (if ev = 0 then []
              else 'E' :: (if ev < 0 then '-' else '+') :: natToChars ev.natAbs))
      = some ⟨sg, digitsVal (ip ++ fp), ev - (fp.length : ℤ)⟩ := by
  have hipm : ip.map digChar ≠ [] := by
    simpa [List.map_eq_nil_iff] using hip
  by_cases hfp : fp = []
  · subst hfp
    rw [if_pos rfl, List.append_nil]
    have hsd := spanDigits_append ip h1 _ (headNotDigit_expPart ev)
    unfold convert_decimal_core
    rw [hsd, fracSplit_expPart, parseExpPart_shape]
    rw [if_neg (by simp [hipm])]
    simp [charsVal_map_digChar ip h1]
  · rw [if_neg hfp]
    have hassoc : ip.map digChar ++ ('.' :: fp.map digChar)
          ++ (if ev = 0 then []
              else 'E' :: (if ev < 0 then '-' else '+') :: natToChars ev.natAbs)
        = ip.map digChar ++ ('.' :: (fp.map digChar
            ++ (if ev = 0 then []
                else 'E' :: (if ev < 0 then '-' else '+') :: natToChars ev.natAbs))) := by
      simp
    rw [hassoc]
    have hdot : headNotDigit ('.' :: (fp.map digChar
        ++ (if ev = 0 then []
            else 'E' :: (if ev < 0 then '-' else '+') :: natToChars ev.natAbs))) := by
      show '.'.isDigit = false
      decide
    have hsd := spanDigits_append ip h1 _ hdot
    have hsd2 := spanDigits_append fp h2 _ (headNotDigit_expPart ev)
    unfold convert_decimal_core
    rw [hsd, fracSplit_dot, hsd2, parseExpPart_shape]
    rw [if_neg (by simp [hipm])]
    have hcoeff : charsVal (ip.map digChar ++ fp.map digChar)
        = digitsVal (ip ++ fp) := by
      rw [← List.map_append]
      refine charsVal_map_digChar _ ?_
      intro d hd
      rcases List.mem_append.mp hd with hd | hd
      · exact h1 d hd
      · exact h2 d hd
    simp [hcoeff]

theorem parseSign_digits (ds : List ℕ) (hne : ds ≠ []) (h : ∀ d ∈ ds, d < 10)
    (rest : List Char) :
    parseSign (ds.map digChar ++ rest) = (false, ds.map digChar ++ rest) := by
  cases ds with
  | nil => exact absurd rfl hne
  | cons d t =>
      have hd : d < 10 := h d (List.mem_cons_self d t)
      simp only [List.map_cons, List.cons_append]
      exact parseSign_other _ (digChar_ne_dash d hd) (digChar_ne_plus d hd)

/-- Behavior of `convert_decimal` on a full rendered numeric string of the canonical
shape. -/
theorem convert_decimal_shape (sg : Bool) (ip fp : List ℕ) (ev : ℤ)
    (hip : ip ≠ []) (h1 : ∀ d ∈ ip, d < 10) (h2 : ∀ d ∈ fp, d < 10) :
    convert_decimal ((if sg then ['-'] else [])
        ++ (ip.map digChar
          ++ (if fp = [] then [] else '.' :: fp.map digChar)
          ++ (if ev = 0 then []
              else 'E' :: (if ev < 0 then '-' else '+') :: natToChars ev.natAbs)))
      = some ⟨sg, digitsVal (ip ++ fp), ev - (fp.length : ℤ)⟩ := by
  have hassoc : ip.map digChar
      ++ (if fp = [] then [] else '.' :: fp.map digChar)
      ++ (if ev = 0 then []
          else 'E' :: (if ev < 0 then '-' else '+') :: natToChars ev.natAbs)
      = ip.map digChar
        ++ ((if fp = [] then [] else '.' :: fp.map digChar)
          ++ (if ev = 0 then []
              else 'E' :: (if ev < 0 then '-' else '+') :: natToChars ev.natAbs)) :=
    List.append_assoc _ _ _
  cases sg with
  | false =>
      rw [show (if (false : Bool) then ['-'] else []) = ([] : List Char) from rfl,
        List.nil_append]
      unfold convert_decimal
      rw [hassoc, parseSign_digits ip hip h1 _]
      show convert_decimal_core false
          (ip.map digChar
            ++ ((if fp = [] then [] else '.' :: fp.map digChar)
              ++ (if ev = 0 then []
                  else 'E' :: (if ev < 0 then '-' else '+') :: natToChars ev.natAbs)))
          = _
      rw [← hassoc]
      exact convert_core_shape false ip fp ev hip h1 h2
  | true =>
      rw [show (if (true : Bool) then ['-'] else []) = (['-'] : List Char) from rfl]
      rw [show (['-'] : List Char)
          ++ (ip.map digChar
            ++ (if fp = [] then [] else '.' :: fp.map digChar)
            ++ (if ev = 0 then []
                else 'E' :: (if ev < 0 then '-' else '+') :: natToChars ev.natAbs))
          = '-' :: (ip.map digChar
            ++ (if fp = [] then [] else '.' :: fp.map digChar)
            ++ (if ev = 0 then []
                else 'E' :: (if ev < 0 then '-' else '+') :: natToChars ev.natAbs))
        from rfl]
      unfold convert_decimal
      rw [parseSign_dash]
      show convert_decimal_core true
          (ip.map digChar
            ++ (if fp = [] then [] else '.' :: fp.map digChar)
            ++ (if ev = 0 then []
                else 'E' :: (if ev < 0 then '-' else '+') :: natToChars ev.natAbs))
          = _
      exact convert_core_shape true ip fp ev hip h1 h2

/-- The decimal codec round-trip on numeric values: parsing the rendered
string recovers the value (Python `Decimal` equality is numeric equality). -/
theorem convert_adapt_decimal (x : DecimalRepr) (hwf : x.wf) :
    (convert_decimal (adapt_decimal x)).map DecVal.val = some x.val := by
  obtain ⟨hne, hdig⟩ := hwf
  have hL : 0 < x.digits.length := List.length_pos.mpr hne
  have hevdef : decExpval x = x.exp + (x.digits.length : ℤ) - decDotplace x := rfl
  by_cases hb1 : decDotplace x ≤ 0
  · -- leading "0." and zero padding; exponent part empty
    have hdp : decDotplace x = x.exp + (x.digits.length : ℤ) := by
      unfold decDotplace at hb1 ⊢
      split_ifs at hb1 ⊢ with h
      · rfl
      · omega
    have hev0 : decExpval x = 0 := by
      rw [hevdef, hdp]
      ring
    have hkz : (((-decDotplace x).toNat : ℤ)) = -(x.exp + (x.digits.length : ℤ)) := by
      rw [Int.toNat_of_nonneg (by omega), hdp]
    have hbody : decBody x
        = [0].map digChar
          ++ (if (List.replicate (-decDotplace x).toNat 0 ++ x.digits) = [] then []
              else '.' ::
                (List.replicate (-decDotplace x).toNat 0 ++ x.digits).map digChar) := by
      unfold decBody
      rw [if_pos hb1, if_neg (by simp [hne])]
      simp only [List.map_append, List.map_replicate, List.map_cons, List.map_nil]
      rfl
    have happ : adapt_decimal x
        = (if x.sign then ['-'] else [])
          ++ ([0].map digChar
            ++ (if (List.replicate (-decDotplace x).toNat 0 ++ x.digits) = [] then []
                else '.' ::
                  (List.replicate (-decDotplace x).toNat 0 ++ x.digits).map digChar)
            ++ (if decExpval x = 0 then []
                else 'E' :: (if decExpval x < 0 then '-' else '+')
                  :: natToChars (decExpval x).natAbs)) := by
      unfold adapt_decimal
      rw [hbody, List.append_assoc]
    rw [happ, convert_decimal_shape x.sign [0]
      (List.replicate (-decDotplace x).toNat 0 ++ x.digits) (decExpval x)
      (by simp) (by decide)
      (by
        intro d hd
        rcases List.mem_append.mp hd with hd | hd
        · rw [List.eq_of_mem_replicate hd]
          omega
        · exact hdig d hd)]
    simp only [Option.map_some']
    congr 1
    have hA : digitsVal ([0] ++ (List.replicate (-decDotplace x).toNat 0 ++ x.digits))
        = digitsVal x.digits := by
      have hrep : ([0] : List ℕ) ++ (List.replicate (-decDotplace x).toNat 0 ++ x.digits)
          = List.replicate ((-decDotplace x).toNat + 1) 0 ++ x.digits := by
        simp [List.replicate_succ]
      rw [hrep, digitsVal_leading_zeros]
    have hB : decExpval x
          - (((List.replicate (-decDotplace x).toNat 0 ++ x.digits).length : ℕ) : ℤ)
        = x.exp := by
      simp only [List.length_append, List.length_replicate]
      push_cast
      omega
    unfold DecVal.val DecimalRepr.val
    rw [hA, hB]
  · by_cases hb2 : (x.digits.length : ℤ) ≤ decDotplace x
    · -- the digits alone (dotplace = number of digits)
      have hdpL : decDotplace x = (x.digits.length : ℤ) := by
        unfold decDotplace at hb1 hb2 ⊢
        split_ifs at hb1 hb2 ⊢ with h
        · omega
        · omega
      have hev : decExpval x = x.exp := by
        rw [hevdef, hdpL]
        ring
      have hrep0 : (decDotplace x - (x.digits.length : ℤ)).toNat = 0 := by
        omega
      have hbody : decBody x = x.digits.map digChar := by
        unfold decBody
        rw [if_neg hb1, if_pos hb2, hrep0]
        simp
      have hshape := convert_decimal_shape x.sign x.digits [] (decExpval x)
        hne hdig (by simp)
      rw [if_pos (rfl : ([] : List ℕ) = [])] at hshape
      rw [List.append_nil] at hshape
      have happ : adapt_decimal x
          = (if x.sign then ['-'] else [])
            ++ (x.digits.map digChar
              ++ (if decExpval x = 0 then []
                  else 'E' :: (if decExpval x < 0 then '-' else '+')
                    :: natToChars (decExpval x).natAbs)) := by
        unfold adapt_decimal
        rw [hbody, List.append_assoc]
      rw [happ, hshape]
      simp only [Option.map_some']
      congr 1
      unfold DecVal.val DecimalRepr.val
      rw [List.append_nil]
      rw [show decExpval x - ((List.length ([] : List ℕ) : ℕ) : ℤ) = x.exp by
        simp [hev]]
    · -- digits split around an interior decimal point
      have hdpos : 0 < decDotplace x := by omega
      have hplt : decDotplace x < (x.digits.length : ℤ) := by omega
      have hpz : (((decDotplace x).toNat : ℤ)) = decDotplace x :=
        Int.toNat_of_nonneg (by omega)
      have hip_ne : x.digits.take (decDotplace x).toNat ≠ [] := by
        intro hcon
        have := congrArg List.length hcon
        simp only [List.length_take, List.length_nil] at this
        omega
      have hfp_ne : x.digits.drop (decDotplace x).toNat ≠ [] := by
        intro hcon
        have := congrArg List.length hcon
        simp only [List.length_drop, List.length_nil] at this
        omega
      have hbody : decBody x
          = (x.digits.take (decDotplace x).toNat).map digChar
            ++ ('.' :: (x.digits.drop (decDotplace x).toNat).map digChar) := by
        unfold decBody
        rw [if_neg hb1, if_neg hb2]
        rw [← List.map_take, ← List.map_drop]
      have hshape := convert_decimal_shape x.sign
        (x.digits.take (decDotplace x).toNat)
        (x.digits.drop (decDotplace x).toNat) (decExpval x)
        hip_ne
        (fun d hd => hdig d (List.take_subset _ _ hd))
        (fun d hd => hdig d (List.drop_subset _ _ hd))
      rw [if_neg hfp_ne] at hshape
      have happ : adapt_decimal x
          = (if x.sign then ['-'] else [])
            ++ ((x.digits.take (decDotplace x).toNat).map digChar
              ++ ('.' :: (x.digits.drop (decDotplace x).toNat).map digChar)
              ++ (if decExpval x = 0 then []
                  else 'E' :: (if decExpval x < 0 then '-' else '+')
                    :: natToChars (decExpval x).natAbs)) := by
        unfold adapt_decimal
        rw [hbody, List.append_assoc]
      rw [happ, hshape]
      simp only [Option.map_some']
      congr 1
      have hA : digitsVal (x.digits.take (decDotplace x).toNat
            ++ x.digits.drop (decDotplace x).toNat)
          = digitsVal x.digits := by
        rw [List.take_append_drop]
      have hB : decExpval x
            - (((x.digits.drop (decDotplace x).toNat).length : ℕ) : ℤ) = x.exp := by
        simp only [List.length_drop]
        omega
      unfold DecVal.val DecimalRepr.val
      rw [hA, hB]

/-- A Python `datetime` as stored: date and time fields plus an optional
fixed offset in whole minutes (`VE_TZ` is -240). -/
structure PyDateTime where
  year : ℕ
  month : ℕ
  day : ℕ
  hour : ℕ
  minute : ℕ
  second : ℕ
  usec : ℕ
  off : Option ℤ
deriving DecidableEq

/-- Python `datetime` constructor invariants (offsets strictly inside ±24 h, in
whole minutes as `timezone(timedelta(hours=…))` offsets are). -/
def PyDateTime.wf (t : PyDateTime) : Prop :=
  validDate t.year t.month t.day ∧ t.hour < 24 ∧ t.minute < 60 ∧ t.second < 60
    ∧ t.usec < 1000000 ∧ ∀ o : ℤ, t.off = some o → o.natAbs < 1440

def pad2 (n : ℕ) : List Char := [digChar (n / 10), digChar (n % 10)]

def pad4 (n : ℕ) : List Char :=
  [digChar (n / 1000), digChar (n / 100 % 10), digChar (n / 10 % 10), digChar (n % 10)]

def pad6 (n : ℕ) : List Char :=
  [digChar (n / 100000), digChar (n / 10000 % 10), digChar (n / 1000 % 10),
   digChar (n / 100 % 10), digChar (n / 10 % 10), digChar (n % 10)]

/-- The `±HH:MM` offset suffix of `isoformat` (empty for naive datetimes). -/
def offPart : Option ℤ → List Char
  | none => []
  | some o =>
      (if o < 0 then '-' else '+') :: pad2 (o.natAbs / 60) ++ ':' :: pad2 (o.natAbs % 60)

/-- Render `datetime.isoformat()` (`adapt_datetime_iso`): `YYYY-MM-DDTHH:MM:SS`, with
`.ffffff` exactly when the microsecond field is nonzero and `±HH:MM` exactly
when an offset is attached. -/
def adapt_datetime_iso (t : PyDateTime) : List Char :=
  pad4 t.year ++ '-' :: pad2 t.month ++ '-' :: pad2 t.day ++ 'T' :: pad2 t.hour
    ++ ':' :: pad2 t.minute ++ ':' :: pad2 t.second
    ++ ((if t.usec = 0 then [] else '.' :: pad6 t.usec) ++ offPart t.off)

def read2 : List Char → Option (ℕ × List Char)
  | c1 :: c2 :: rest =>
      if c1.isDigit ∧ c2.isDigit then some (10 * charVal c1 + charVal c2, rest)
      else none
  | _ => none

def read4 : List Char → Option (ℕ × List Char)
  | c1 :: c2 :: c3 :: c4 :: rest =>
      if c1.isDigit ∧ c2.isDigit ∧ c3.isDigit ∧ c4.isDigit then
        some (1000 * charVal c1 + 100 * charVal c2 + 10 * charVal c3 + charVal c4, rest)
      else none
  | _ => none

def read6 : List Char → Option (ℕ × List Char)
  | c1 :: c2 :: c3 :: c4 :: c5 :: c6 :: rest =>
      if c1.isDigit ∧ c2.isDigit ∧ c3.isDigit ∧ c4.isDigit ∧ c5.isDigit ∧ c6.isDigit then
        some (100000 * charVal c1 + 10000 * charVal c2 + 1000 * charVal c3
          + 100 * charVal c4 + 10 * charVal c5 + charVal c6, rest)
      else none
  | _ => none

/-- The offset suffix of `fromisoformat`: `±HH:MM` reaching the end. -/
def convert_datetime_off (y mo d hh mi ss us : ℕ) : List Char → Option PyDateTime
  | [] => some ⟨y, mo, d, hh, mi, ss, us, none⟩
  | c :: t =>
      if c = '+' ∨ c = '-' then
        match read2 t with
        | none => none
        | some (oh, t2) =>
          match litTok ':' t2 with
          | none => none
          | some t3 =>
            match read2 t3 with
            | none => none
            | some (om, t4) =>
              if t4 = [] then
                some ⟨y, mo, d, hh, mi, ss, us,
                  some ((if c = '-' then -1 else 1) * (60 * (oh : ℤ) + (om : ℤ)))⟩
              else none
      else none

/-- The optional `.ffffff` fraction of `fromisoformat`. -/
def convert_datetime_frac (y mo d hh mi ss : ℕ) (cs : List Char) : Option PyDateTime :=
  if cs.head? = some '.' then
    match read6 cs.tail with
    | none => none
    | some (us, rest) => convert_datetime_off y mo d hh mi ss us rest
  else convert_datetime_off y mo d hh mi ss 0 cs

/-- Parse `datetime.fromisoformat` (`convert_datetime`) on the strings `isoformat`
emits: positional date and time fields, then the optional fraction and
offset. -/
def convert_datetime (cs : List Char) : Option PyDateTime :=
  match read4 cs with
  | none => none
  | some (y, cs) =>
    match litTok '-' cs with
    | none => none
    | some cs =>
      match read2 cs with
      | none => none
      | some (mo, cs) =>
        match litTok '-' cs with
        | none => none
        | some cs =>
          match read2 cs with
          | none => none
          | some (d, cs) =>
            match litTok 'T' cs with
            | none => none
            | some cs =>
              match read2 cs with
              | none => none
              | some (hh, cs) =>
                match litTok ':' cs with
                | none => none
                | some cs =>
                  match read2 cs with
                  | none => none
                  | some (mi, cs) =>
                    match litTok ':' cs with
                    | none => none
                    | some cs =>
                      match read2 cs with
                      | none => none
                      | some (ss, cs) => convert_datetime_frac y mo d hh mi ss cs

theorem litTok_cons_self (c : Char) (rest : List Char) :
    litTok c (c :: rest) = some rest := by
  unfold litTok
  simp

theorem read2_pad2 (n : ℕ) (h : n < 100) (rest : List Char) :
    read2 (pad2 n ++ rest) = some (n, rest) := by
  have h1 : n / 10 < 10 := by omega
  have h2 : n % 10 < 10 := by omega
  show (if (digChar (n / 10)).isDigit ∧ (digChar (n % 10)).isDigit
      then some (10 * charVal (digChar (n / 10)) + charVal (digChar (n % 10)), rest)
      else none) = some (n, rest)
  rw [if_pos ⟨isDigit_digChar _ h1, isDigit_digChar _ h2⟩,
    charVal_digChar _ h1, charVal_digChar _ h2]
  rw [show 10 * (n / 10) + n % 10 = n by omega]

theorem read4_pad4 (n : ℕ) (h : n < 10000) (rest : List Char) :
    read4 (pad4 n ++ rest) = some (n, rest) := by
  have h1 : n / 1000 < 10 := by omega
  have h2 : n / 100 % 10 < 10 := by omega
  have h3 : n / 10 % 10 < 10 := by omega
  have h4 : n % 10 < 10 := by omega
  show (if (digChar (n / 1000)).isDigit ∧ (digChar (n / 100 % 10)).isDigit
        ∧ (digChar (n / 10 % 10)).isDigit ∧ (digChar (n % 10)).isDigit
      then some (1000 * charVal (digChar (n / 1000)) + 100 * charVal (digChar (n / 100 % 10))
        + 10 * charVal (digChar (n / 10 % 10)) + charVal (digChar (n % 10)), rest)
      else none) = some (n, rest)
  rw [if_pos ⟨isDigit_digChar _ h1, isDigit_digChar _ h2, isDigit_digChar _ h3,
    isDigit_digChar _ h4⟩,
    charVal_digChar _ h1, charVal_digChar _ h2, charVal_digChar _ h3, charVal_digChar _ h4]
  rw [show 1000 * (n / 1000) + 100 * (n / 100 % 10) + 10 * (n / 10 % 10) + n % 10 = n
    by omega]

theorem read6_pad6 (n : ℕ) (h : n < 1000000) (rest : List Char) :
    read6 (pad6 n ++ rest) = some (n, rest) := by
  have h1 : n / 100000 < 10 := by omega
  have h2 : n / 10000 % 10 < 10 := by omega
  have h3 : n / 1000 % 10 < 10 := by omega
  have h4 : n / 100 % 10 < 10 := by omega
  have h5 : n / 10 % 10 < 10 := by omega
  have h6 : n % 10 < 10 := by omega
  show (if (digChar (n / 100000)).isDigit ∧ (digChar (n / 10000 % 10)).isDigit
        ∧ (digChar (n / 1000 % 10)).isDigit ∧ (digChar (n / 100 % 10)).isDigit
        ∧ (digChar (n / 10 % 10)).isDigit ∧ (digChar (n % 10)).isDigit
      then some (100000 * charVal (digChar (n / 100000))
        + 10000 * charVal (digChar (n / 10000 % 10))
        + 1000 * charVal (digChar (n / 1000 % 10))
        + 100 * charVal (digChar (n / 100 % 10))
        + 10 * charVal (digChar (n / 10 % 10)) + charVal (digChar (n % 10)), rest)
      else none) = some (n, rest)
  rw [if_pos ⟨isDigit_digChar _ h1, isDigit_digChar _ h2, isDigit_digChar _ h3,
    isDigit_digChar _ h4, isDigit_digChar _ h5, isDigit_digChar _ h6⟩,
    charVal_digChar _ h1, charVal_digChar _ h2, charVal_digChar _ h3,
    charVal_digChar _ h4, charVal_digChar _ h5, charVal_digChar _ h6]
  rw [show 100000 * (n / 100000) + 10000 * (n / 10000 % 10) + 1000 * (n / 1000 % 10)
      + 100 * (n / 100 % 10) + 10 * (n / 10 % 10) + n % 10 = n by omega]

theorem read2_pad2_end (n : ℕ) (h : n < 100) : read2 (pad2 n) = some (n, []) := by
  have h2 := read2_pad2 n h []
  rwa [List.append_nil] at h2

theorem convert_datetime_off_round (y mo d hh mi ss us : ℕ) (off : Option ℤ)
    (hoff : ∀ o : ℤ, off = some o → o.natAbs < 1440) :
    convert_datetime_off y mo d hh mi ss us (offPart off)
      = some ⟨y, mo, d, hh, mi, ss, us, off⟩ := by
  cases off with
  | none => rfl
  | some o =>
      have hob : o.natAbs < 1440 := hoff o rfl
      have hoh : o.natAbs / 60 < 100 := by omega
      have hom : o.natAbs % 60 < 100 := by omega
      by_cases hneg : o < 0
      · rw [show offPart (some o)
            = (if o < 0 then '-' else '+')
              :: (pad2 (o.natAbs / 60) ++ ':' :: pad2 (o.natAbs % 60)) from rfl,
          if_pos hneg]
        simp only [convert_datetime_off, read2_pad2 _ hoh, litTok_cons_self,
          read2_pad2_end _ hom, or_true, if_true]
        have harith : (-1 : ℤ)
            * (60 * ((o.natAbs / 60 : ℕ) : ℤ) + ((o.natAbs % 60 : ℕ) : ℤ)) = o := by
          omega
        rw [harith]
      · rw [show offPart (some o)
            = (if o < 0 then '-' else '+')
              :: (pad2 (o.natAbs / 60) ++ ':' :: pad2 (o.natAbs % 60)) from rfl,
          if_neg hneg]
        simp only [convert_datetime_off, read2_pad2 _ hoh, litTok_cons_self,
          read2_pad2_end _ hom, true_or, if_true,
          (by decide : ¬ (('+' : Char) = '-')), if_false]
        have harith : (1 : ℤ)
            * (60 * ((o.natAbs / 60 : ℕ) : ℤ) + ((o.natAbs % 60 : ℕ) : ℤ)) = o := by
          omega
        rw [harith]

theorem convert_datetime_frac_round (y mo d hh mi ss us : ℕ) (hus : us < 1000000)
    (off : Option ℤ) (hoff : ∀ o : ℤ, off = some o → o.natAbs < 1440) :
    convert_datetime_frac y mo d hh mi ss
        ((if us = 0 then [] else '.' :: pad6 us) ++ offPart off)
      = some ⟨y, mo, d, hh, mi, ss, us, off⟩ := by
  have hoffhead : (offPart off).head? ≠ some '.' := by
    cases off with
    | none => simp [offPart]
    | some o =>
        by_cases hneg : o < 0
        · rw [show offPart (some o)
              = (if o < 0 then '-' else '+')
                :: (pad2 (o.natAbs / 60) ++ ':' :: pad2 (o.natAbs % 60)) from rfl,
            if_pos hneg]
          simp
        · rw [show offPart (some o)
              = (if o < 0 then '-' else '+')
                :: (pad2 (o.natAbs / 60) ++ ':' :: pad2 (o.natAbs % 60)) from rfl,
            if_neg hneg]
          simp
  by_cases hus0 : us = 0
  · subst hus0
    rw [if_pos rfl, List.nil_append]
    unfold convert_datetime_frac
    rw [if_neg hoffhead]
    exact convert_datetime_off_round y mo d hh mi ss 0 off hoff
  · rw [if_neg hus0, List.cons_append]
    unfold convert_datetime_frac
    rw [if_pos (show ('.' :: (pad6 us ++ offPart off)).head? = some '.' from rfl)]
    rw [show ('.' :: (pad6 us ++ offPart off)).tail = pad6 us ++ offPart off from rfl]
    simp only [read6_pad6 us hus]
    exact convert_datetime_off_round y mo d hh mi ss us off hoff

/-- The datetime codec round-trip: `fromisoformat` inverts `isoformat` on
every valid datetime with a whole-minute (or absent) offset. -/
theorem convert_adapt_datetime (t : PyDateTime) (h : t.wf) :
    convert_datetime (adapt_datetime_iso t) = some t := by
  obtain ⟨y, mo, d, hh, mi, ss, us, off⟩ := t
  have h' : validDate y mo d ∧ hh < 24 ∧ mi < 60 ∧ ss < 60 ∧ us < 1000000
      ∧ ∀ o : ℤ, off = some o → o.natAbs < 1440 := h
  obtain ⟨hv, hhh, hmi2, hss, hus, hoff⟩ := h'
  obtain ⟨hy1, hy2, hm1, hm2, hd1, hd2⟩ := hv
  have hdm : d < 100 := by
    have h31 : daysInMonth y mo ≤ 31 := by
      unfold daysInMonth
      split_ifs <;> omega
    omega
  show convert_datetime (pad4 y ++ '-' :: pad2 mo ++ '-' :: pad2 d ++ 'T' :: pad2 hh
      ++ ':' :: pad2 mi ++ ':' :: pad2 ss
      ++ ((if us = 0 then [] else '.' :: pad6 us) ++ offPart off)) = _
  simp only [List.append_assoc, List.cons_append]
  unfold convert_datetime
  simp only [read4_pad4 y (by omega), litTok_cons_self, read2_pad2 mo (by omega),
    read2_pad2 d hdm, read2_pad2 hh (by omega), read2_pad2 mi (by omega),
    read2_pad2 ss (by omega)]
  exact convert_datetime_frac_round y mo d hh mi ss us hus off hoff

/-- Claim C9: the storage codec functions are mutually inverse round-trips:
for every finite Decimal `d`, `convert_decimal` applied to the encoding of
`adapt_decimal d` returns a Decimal equal (as a numeric value, which is how
Python compares Decimals) to `d`; and for every valid datetime `t`,
`convert_datetime` applied to the encoding of `adapt_datetime_iso t` returns
a datetime equal to `t` — so every rate written through the sqlite adapters
is read back unchanged. -/
theorem C9_codec_roundtrip :
    (∀ x : DecimalRepr, x.wf →
        (convert_decimal (adapt_decimal x)).map DecVal.val = some x.val)
    ∧ (∀ t : PyDateTime, t.wf → convert_datetime (adapt_datetime_iso t) = some t) :=
  ⟨convert_adapt_decimal, convert_adapt_datetime⟩

/-- Witness for C9: `Decimal('4.5')` and the aware datetime
2021-10-01T00:00:00-04:00 both survive the round-trip. -/
theorem C9_codec_roundtrip_witness :
    (convert_decimal (adapt_decimal ⟨false, [4, 5], -1⟩)).map DecVal.val
      = some (DecimalRepr.val ⟨false, [4, 5], -1⟩)
    ∧ convert_datetime (adapt_datetime_iso ⟨2021, 10, 1, 0, 0, 0, 0, some (-240)⟩)
      = some ⟨2021, 10, 1, 0, 0, 0, 0, some (-240)⟩ := by
  constructor
  · exact C9_codec_roundtrip.1 ⟨false, [4, 5], -1⟩ ⟨by decide, by decide⟩
  · exact C9_codec_roundtrip.2 ⟨2021, 10, 1, 0, 0, 0, 0, some (-240)⟩
      ⟨by decide, by decide, by decide, by decide, by decide,
        fun o ho => by
          injection ho with h
          rw [← h]
          decide⟩

/-- Sanity: `str(Decimal('4.5'))` is "4.5". -/
theorem adapt_decimal_example :
    adapt_decimal ⟨false, [4, 5], -1⟩ = ('4' :: '.' :: '5' :: []) := by
  rfl

/-- Sanity: the VE-midnight rate instant renders with the fixed -04:00
offset. -/
theorem adapt_datetime_iso_example :
    adapt_datetime_iso ⟨2021, 10, 1, 0, 0, 0, 0, some (-240)⟩
      = ('2' :: '0' :: '2' :: '1' :: '-' :: '1' :: '0' :: '-' :: '0' :: '1' :: 'T'
        :: '0' :: '0' :: ':' :: '0' :: '0' :: ':' :: '0' :: '0'
        :: '-' :: '0' :: '4' :: ':' :: '0' :: '0' :: []) := by
  rfl
